import Mathlib

/-!
# Verification of the `stroll` software timer service

Shallow embedding of `timer.hpp` (namespace `stroll`): the indexed min-heap
`MinHeap`, the scheduling engine `TimerManager`, and the public `Timer` facade.

Modelling conventions:
* `uint64_t` values (`next_tp`, `interval_ns`, `delay_ns`) are `Nat` with
  explicit `% 2^64` where C++ arithmetic can wrap; the sentinel
  `(uint64_t)-1` is `UINT64MAX = 2^64 - 1`.
* C++ `unsigned` (32-bit) arithmetic wraps `% 2^32` (the `set_interval`
  expression `ms * 1000 * 1000` is evaluated at `unsigned`, while
  `add_timer`'s `1000ul * 1000 * interval_ms` is evaluated at 64 bits,
  `unsigned long` being 64-bit on the target platform).
* A `TimerHandler` (a `std::shared_ptr<TimerNode>`) is a node id (`Nat`)
  indexing a store `nodes : Array TimerNode`; a null handler is `none` of
  `Option Nat`.  The heap's backing vector `buff_` is `buff : Array Nat`
  of node ids, so mutation through shared pointers is explicit store update.
* The callback body `func` is not modelled; what the claims speak about is
  whether the scheduler dispatches a firing, which `check_task_step` reports.
* `clock_gettime` is an oracle: each operation that reads the clock takes
  `now : Nat` as an argument.
* The C++ percolate loops are embedded with an explicit fuel argument so the
  definitions compute by kernel reduction; the fuel passed by the wrappers is
  proved sufficient (the loops reach their genuine exit condition), so the
  embedded functions agree with the C++ `while` loops.
-/

namespace Stroll

/-! ## Array helpers

`std::vector::at` / indexed read and write, total versions.  Out-of-range
access in the C++ source throws (or is undefined); every theorem below only
evaluates these helpers in range, under explicit validity hypotheses. -/

def arrGet {α : Type} [Inhabited α] (a : Array α) (i : Nat) : α :=
  if h : i < a.size then a[i] else default

def arrSet {α : Type} (a : Array α) (i : Nat) (v : α) : Array α :=
  if h : i < a.size then a.set ⟨i, h⟩ v else a

@[simp] theorem size_arrSet {α : Type} (a : Array α) (i : Nat) (v : α) :
    (arrSet a i v).size = a.size := by
  unfold arrSet; split <;> simp

theorem arrGet_arrSet_self {α : Type} [Inhabited α] (a : Array α) (i : Nat) (v : α)
    (h : i < a.size) : arrGet (arrSet a i v) i = v := by
  unfold arrGet arrSet
  have h' : i < (a.set ⟨i, h⟩ v).size := by simpa using h
  simp [h, h', Array.get_set_eq]

theorem arrGet_arrSet_ne {α : Type} [Inhabited α] (a : Array α) (i j : Nat) (v : α)
    (hij : i ≠ j) : arrGet (arrSet a i v) j = arrGet a j := by
  unfold arrGet arrSet
  by_cases hi : i < a.size
  · by_cases hj : j < a.size
    · have hj' : j < (a.set ⟨i, hi⟩ v).size := by simpa using hj
      simp only [hi, dif_pos, hj, hj']
      exact Array.get_set_ne a ⟨i, hi⟩ v hj hij
    · have hj' : ¬ j < (a.set ⟨i, hi⟩ v).size := by simpa using hj
      simp [hi, hj, hj']
  · simp [hi]

theorem arrSet_arrGet_self {α : Type} [Inhabited α] (a : Array α) (i : Nat)
    (h : i < a.size) : arrSet a i (arrGet a i) = a := by
  unfold arrGet arrSet
  simp only [h, dif_pos]
  apply Array.ext
  · simp
  · intro k hk hk'
    rw [Array.get_set]
    split
    · rename_i heq; subst heq; rfl
    · rfl

theorem arrGet_push_lt {α : Type} [Inhabited α] (a : Array α) (v : α) (i : Nat)
    (h : i < a.size) : arrGet (a.push v) i = arrGet a i := by
  unfold arrGet
  have hs : i < (a.push v).size := by simp; omega
  simp only [hs, dif_pos, h]
  exact Array.getElem_push_lt a v i h

theorem arrGet_push_self {α : Type} [Inhabited α] (a : Array α) (v : α) :
    arrGet (a.push v) a.size = v := by
  unfold arrGet
  have hs : a.size < (a.push v).size := by simp
  simp [hs, Array.getElem_push_eq]

/-! ## Data model: `TimerNode` -/

/-- 2^64, the modulus of `uint64_t` arithmetic. -/
def U64 : Nat := 2 ^ 64

/-- 2^32, the modulus of `unsigned` arithmetic. -/
def U32 : Nat := 2 ^ 32

/-- `(uint64_t)-1`, the sentinel "never fires" timepoint. -/
def UINT64MAX : Nat := 2 ^ 64 - 1

/-- `struct TimerNode` (the callback `func` is not modelled; `index` is the
`heap_slot` of the spec, `next_tp` its `next_fire`). -/
structure TimerNode where
  name : String
  index : Nat
  interval_ns : Nat
  delay_ns : Nat
  next_tp : Nat
  running : Bool
  deriving Repr, DecidableEq

/-- The C++ in-class member initializers of `TimerNode`
(`index = 0`, `interval_ns = 0`, `delay_ns = 0`, `next_tp = (uint64_t)-1`,
`running{false}`). -/
def TimerNode.init : TimerNode :=
  { name := "", index := 0, interval_ns := 0, delay_ns := 0,
    next_tp := UINT64MAX, running := false }

instance : Inhabited TimerNode := ⟨TimerNode.init⟩

/-- The mutable state shared by `MinHeap` and `TimerManager`: the node store
(each `TimerHandler` is an index into `nodes`) and the heap backing vector
`buff_` (node ids). -/
structure HeapState where
  nodes : Array TimerNode
  buff : Array Nat
  deriving Repr, DecidableEq

/-- The node stored at heap position `pos` (`*buff_.at(pos)`). -/
def nodeAt (s : HeapState) (pos : Nat) : TimerNode :=
  arrGet s.nodes (arrGet s.buff pos)

/-- `next_tp` of the node at heap position `pos`; `operator<` on
`TimerHandler` compares exactly these values. -/
def valAt (s : HeapState) (pos : Nat) : Nat := (nodeAt s pos).next_tp

/-- Store update `h->next_tp = tp` through a handler. -/
def setNext (s : HeapState) (id tp : Nat) : HeapState :=
  { s with nodes := arrSet s.nodes id { arrGet s.nodes id with next_tp := tp } }

/-- Store update `h->index = i` through a handler. -/
def setIndex (s : HeapState) (id i : Nat) : HeapState :=
  { s with nodes := arrSet s.nodes id { arrGet s.nodes id with index := i } }

/-! ## `MinHeap` -/

/-- Loop body of `MinHeap::percolate_up`, fuel-indexed.  State `s`, the saved
handler `tmp` (node id `tmpId`), and the 1-based `wrap_pos` whose 0-based
position `wrap_pos - 1` is the current hole.  Each iteration shifts the
parent down into the hole (updating the moved node's `index` field) and moves
the hole to the parent, exactly as the C++ `while` loop. -/
def upLoop : Nat → HeapState → Nat → Nat → HeapState × Nat
  | 0, s, _, wrap_pos => (s, wrap_pos)
  | fuel + 1, s, tmpId, wrap_pos =>
    if 1 ≤ wrap_pos / 2 ∧
        (arrGet s.nodes tmpId).next_tp <
          (arrGet s.nodes (arrGet s.buff (wrap_pos / 2 - 1))).next_tp then
      upLoop fuel
        ⟨arrSet s.nodes (arrGet s.buff (wrap_pos / 2 - 1))
            { arrGet s.nodes (arrGet s.buff (wrap_pos / 2 - 1)) with index := wrap_pos - 1 },
         arrSet s.buff (wrap_pos - 1) (arrGet s.buff (wrap_pos / 2 - 1))⟩
        tmpId (wrap_pos / 2)
    else (s, wrap_pos)

/-- `MinHeap::percolate_up(pos)`: save `tmp = buff_.at(pos)`, run the shift
loop, then write `tmp` at the final hole (setting `tmp->index`) if the hole
moved.  Fuel `pos + 1` is sufficient: `wrap_pos` strictly halves. -/
def percolate_up (s : HeapState) (pos : Nat) : HeapState :=
  if (upLoop (pos + 1) s (arrGet s.buff pos) (pos + 1)).2 - 1 ≠ pos then
    ⟨arrSet (upLoop (pos + 1) s (arrGet s.buff pos) (pos + 1)).1.nodes (arrGet s.buff pos)
        { arrGet (upLoop (pos + 1) s (arrGet s.buff pos) (pos + 1)).1.nodes (arrGet s.buff pos) with
          index := (upLoop (pos + 1) s (arrGet s.buff pos) (pos + 1)).2 - 1 },
     arrSet (upLoop (pos + 1) s (arrGet s.buff pos) (pos + 1)).1.buff
        ((upLoop (pos + 1) s (arrGet s.buff pos) (pos + 1)).2 - 1) (arrGet s.buff pos)⟩
  else (upLoop (pos + 1) s (arrGet s.buff pos) (pos + 1)).1

/-- `MinHeap::find_min_child(pos)` (0-based form of the wrap arithmetic:
left child `2*pos+1`, right child `2*pos+2`; no children returns `pos`
itself, only a left child returns it, otherwise the smaller child). -/
def find_min_child (s : HeapState) (pos : Nat) : Nat :=
  if s.buff.size ≤ 2 * pos + 1 then pos
  else if s.buff.size ≤ 2 * pos + 2 then 2 * pos + 1
  else if (arrGet s.nodes (arrGet s.buff (2 * pos + 1))).next_tp <
      (arrGet s.nodes (arrGet s.buff (2 * pos + 2))).next_tp then 2 * pos + 1
  else 2 * pos + 2

/-- Loop body of `MinHeap::percolate_down`, fuel-indexed, with the hole
position `pos = wrap_pos - 1` as the loop variable.  In the C++ loop the
running `child_index` always equals `find_min_child` of the current hole in
the current buffer (it is initialised that way and re-assigned that way at
the end of each iteration), so recomputing it at the head of each iteration
is the same loop.  Returns the final `wrap_pos = pos + 1`. -/
def downLoop : Nat → HeapState → Nat → Nat → HeapState × Nat
  | 0, s, _, pos => (s, pos + 1)
  | fuel + 1, s, tmpId, pos =>
    if find_min_child s pos ≠ pos ∧
        (arrGet s.nodes (arrGet s.buff (find_min_child s pos))).next_tp <
          (arrGet s.nodes tmpId).next_tp then
      downLoop fuel
        ⟨arrSet s.nodes (arrGet s.buff (find_min_child s pos))
            { arrGet s.nodes (arrGet s.buff (find_min_child s pos)) with index := pos },
         arrSet s.buff pos (arrGet s.buff (find_min_child s pos))⟩
        tmpId (find_min_child s pos)
    else (s, pos + 1)

/-- `MinHeap::percolate_down(pos)`.  Fuel `buff.size + 1` is sufficient: the
hole index strictly increases and stays below `buff.size`. -/
def percolate_down (s : HeapState) (pos : Nat) : HeapState :=
  if (downLoop (s.buff.size + 1) s (arrGet s.buff pos) pos).2 - 1 ≠ pos then
    ⟨arrSet (downLoop (s.buff.size + 1) s (arrGet s.buff pos) pos).1.nodes (arrGet s.buff pos)
        { arrGet (downLoop (s.buff.size + 1) s (arrGet s.buff pos) pos).1.nodes
            (arrGet s.buff pos) with
          index := (downLoop (s.buff.size + 1) s (arrGet s.buff pos) pos).2 - 1 },
     arrSet (downLoop (s.buff.size + 1) s (arrGet s.buff pos) pos).1.buff
        ((downLoop (s.buff.size + 1) s (arrGet s.buff pos) pos).2 - 1) (arrGet s.buff pos)⟩
  else (downLoop (s.buff.size + 1) s (arrGet s.buff pos) pos).1

/-- `MinHeap::empty`. -/
def heapEmpty (s : HeapState) : Bool := s.buff.isEmpty

/-- `MinHeap::top` — `buff_.at(0)`; `at` on an empty vector throws
(`EmptyHeapError` of the spec), modelled by `none`. -/
def top? (s : HeapState) : Option Nat := s.buff[0]?

/-- `MinHeap::update_top(tp)`: `buff_.at(0)->next_tp = tp; percolate_down(0)`. -/
def update_top (s : HeapState) (tp : Nat) : HeapState :=
  percolate_down (setNext s (arrGet s.buff 0) tp) 0

/-- `MinHeap::push(h)`: `h->index = buff_.size(); buff_.push_back(h)`. -/
def push (s : HeapState) (id : Nat) : HeapState :=
  ⟨(setIndex s id s.buff.size).nodes, s.buff.push id⟩

/-- `MinHeap::push_and_sort(h)`: `push(h); percolate_up(h->index)`. -/
def push_and_sort (s : HeapState) (id : Nat) : HeapState :=
  percolate_up (push s id) (arrGet (push s id).nodes id).index

/-- `MinHeap::update_place(h, tp)` — the spec's `reposition`: set
`h->next_tp = tp`, then sift down if the value grew, sift up if it shrank,
nothing if equal. -/
def update_place (s : HeapState) (id : Nat) (tp : Nat) : HeapState :=
  if (arrGet s.nodes id).next_tp < tp then
    percolate_down (setNext s id tp) (arrGet (setNext s id tp).nodes id).index
  else if tp < (arrGet s.nodes id).next_tp then
    percolate_up (setNext s id tp) (arrGet (setNext s id tp).nodes id).index
  else setNext s id tp

/-! ## `TimerManager` -/

/-- `TimerManager::add_timer`: fresh node (in-class initializers, so
`next_tp = (uint64_t)-1`), `interval_ns = 1000ul * 1000 * interval_ms` and
`delay_ns = 1000ul * 1000 * delay_ms` (64-bit products), then `push` (not
`push_and_sort`).  Returns the new state and the handler (node id). -/
def add_timer (s : HeapState) (name : String) (interval_ms delay_ms : Nat) :
    HeapState × Nat :=
  let id := s.nodes.size
  let node : TimerNode :=
    { TimerNode.init with
      name := name
      interval_ns := 1000 * 1000 * interval_ms % U64
      delay_ns := 1000 * 1000 * delay_ms % U64 }
  (push { s with nodes := s.nodes.push node } id, id)

/-- `TimerManager::start`: null handler is a no-op returning 0; otherwise
`update_place(h, now + h->delay_ns)` (64-bit sum). -/
def start (s : HeapState) (h : Option Nat) (now : Nat) : Nat × HeapState :=
  match h with
  | none => (0, s)
  | some id => (0, update_place s id ((now + (arrGet s.nodes id).delay_ns) % U64))

/-- `TimerManager::stop`: null handler is a no-op returning 0; otherwise
`update_place(h, (uint64_t)-1)`. -/
def stop (s : HeapState) (h : Option Nat) : Nat × HeapState :=
  match h with
  | none => (0, s)
  | some id => (0, update_place s id UINT64MAX)

/-- `TimerManager::set_interval`: null handler is a no-op returning 0;
otherwise `h->interval_ns = ms * 1000 * 1000` — an `unsigned` (32-bit)
product — then `update_place(h, now + h->interval_ns)`. -/
def set_interval (s : HeapState) (h : Option Nat) (ms : Nat) (now : Nat) :
    Nat × HeapState :=
  match h with
  | none => (0, s)
  | some id =>
    let ival := ms * 1000 * 1000 % U32
    let s' := { s with nodes := arrSet s.nodes id { arrGet s.nodes id with interval_ns := ival } }
    (0, update_place s' id ((now + ival) % U64))

/-- Outcome of one iteration of the `TimerManager::check_task` loop body. -/
inductive CheckResult where
  /-- Heap empty: `sleep_checker(10); continue`. -/
  | empty : CheckResult
  /-- Root not yet due: `sleep_checker(); continue`. -/
  | notDue : CheckResult
  /-- Root due but its previous invocation still running: deadline already
  advanced, firing skipped (`continue`). -/
  | skip (id : Nat) : CheckResult
  /-- Root due and idle: handler returned for dispatch. -/
  | dispatch (id : Nat) : CheckResult
  /-- `top()` evaluated on an empty heap (`EmptyHeapError`). -/
  | emptyHeapError : CheckResult
  deriving Repr, DecidableEq

/-- The deadline `check_task` computes for a due node:
`handler->interval_ns == 0 ? (uint64_t)-1 : curr_ns + handler->interval_ns`
(64-bit addition). -/
def nextDeadline (nd : TimerNode) (now : Nat) : Nat :=
  if nd.interval_ns = 0 then UINT64MAX else (now + nd.interval_ns) % U64

/-- One iteration of the `TimerManager::check_task` loop body at clock value
`now`: if the heap is non-empty and the root is due, save the claimed
handler (`auto result = handler`), compute the next deadline, advance the
root via `update_top`, then test the `running` flag.  In the C++,
`auto &handler = min_heap_.top()` is a *reference to `buff_[0]`*, so after
`update_top` percolates, `handler->running` reads the flag of whatever node
is at the root of the *updated* heap — possibly a different node than the
claimed one.  The skip/dispatch outcome carries the claimed node's id
(`result`), as the C++ returns it. -/
def check_task_step (s : HeapState) (now : Nat) : CheckResult × HeapState :=
  if heapEmpty s then (.empty, s)
  else
    match top? s with
    | none => (.emptyHeapError, s)
    | some id =>
      if now < (arrGet s.nodes id).next_tp then (.notDue, s)
      else
        if (arrGet (update_top s (nextDeadline (arrGet s.nodes id) now)).nodes
            (arrGet (update_top s (nextDeadline (arrGet s.nodes id) now)).buff 0)).running
        then (.skip id, update_top s (nextDeadline (arrGet s.nodes id) now))
        else (.dispatch id, update_top s (nextDeadline (arrGet s.nodes id) now))

/-! ## `Timer` facade -/

/-- `Timer::~Timer()`: `TimerManager::instance().stop(handler_)`. -/
def timerDtor (s : HeapState) (h : Option Nat) : HeapState := (stop s h).2

/-- `Timer::interval()`: `handler_->interval_ns / 1000 / 1000`, a `uint64_t`
value returned as `unsigned`. -/
def interval_query (s : HeapState) (id : Nat) : Nat :=
  (arrGet s.nodes id).interval_ns / 1000 / 1000 % U32

/-! ## Invariants and basic predicates -/

/-- The slot invariant, indexed form: every heap position `i` holds a valid
node id whose `index` field is `i`. -/
def SlotInv (s : HeapState) : Prop :=
  ∀ i, i < s.buff.size →
    arrGet s.buff i < s.nodes.size ∧ (arrGet s.nodes (arrGet s.buff i)).index = i

/-- The slot invariant exactly as the spec words it: for every node `v`
stored in the heap, the backing storage at index `v.heap_slot` is `v`. -/
def SlotOk (s : HeapState) : Prop :=
  ∀ i, i < s.buff.size →
    arrGet s.buff ((arrGet s.nodes (arrGet s.buff i)).index) = arrGet s.buff i

/-- Node id `x` is stored somewhere in the heap's backing vector. -/
def memB (a : Array Nat) (x : Nat) : Prop := ∃ i, i < a.size ∧ arrGet a i = x

/-- Parent position of heap position `j` (for `j ≥ 1`). -/
def par (j : Nat) : Nat := (j - 1) / 2

/-- Min-heap order on `next_tp`: every non-root position is at least its
parent. -/
def HeapOrd (s : HeapState) : Prop :=
  ∀ j, j < s.buff.size → 1 ≤ j → valAt s (par j) ≤ valAt s j

/-- All fields of the two nodes agree except possibly `index`. -/
def sameExceptIndex (n m : TimerNode) : Prop :=
  n.name = m.name ∧ n.interval_ns = m.interval_ns ∧ n.delay_ns = m.delay_ns ∧
    n.next_tp = m.next_tp ∧ n.running = m.running

/-- The two node stores agree everywhere except possibly `index` fields. -/
def nodesSE (a b : Array TimerNode) : Prop :=
  a.size = b.size ∧ ∀ nid, sameExceptIndex (arrGet a nid) (arrGet b nid)

instance (s : HeapState) : Decidable (SlotInv s) := by
  unfold SlotInv; exact Nat.decidableBallLT _ _

instance (s : HeapState) : Decidable (SlotOk s) := by
  unfold SlotOk; exact Nat.decidableBallLT _ _

/-- Decision procedure for a bounded existential over `Nat`. -/
def decBex (n : Nat) (P : Nat → Prop) [DecidablePred P] :
    Decidable (∃ i, i < n ∧ P i) :=
  match n with
  | 0 => isFalse (by rintro ⟨i, hi, _⟩; omega)
  | n + 1 =>
    match decBex n P with
    | isTrue h => isTrue (by obtain ⟨i, hi, hp⟩ := h; exact ⟨i, by omega, hp⟩)
    | isFalse h =>
      match inferInstanceAs (Decidable (P n)) with
      | isTrue hp => isTrue ⟨n, by omega, hp⟩
      | isFalse hp => isFalse (by
          rintro ⟨i, hi, hq⟩
          rcases Nat.lt_succ_iff_lt_or_eq.mp hi with h' | h'
          · exact h ⟨i, h', hq⟩
          · subst h'; exact hp hq)

instance (a : Array Nat) (x : Nat) : Decidable (memB a x) := decBex _ _

instance (s : HeapState) : Decidable (HeapOrd s) := by
  unfold HeapOrd; exact Nat.decidableBallLT _ _

theorem slotInv_slotOk {s : HeapState} (hs : SlotInv s) : SlotOk s := by
  intro i hi
  rw [(hs i hi).2]

theorem sameExceptIndex_refl (n : TimerNode) : sameExceptIndex n n :=
  ⟨rfl, rfl, rfl, rfl, rfl⟩

theorem sameExceptIndex_trans {a b c : TimerNode}
    (h1 : sameExceptIndex a b) (h2 : sameExceptIndex b c) : sameExceptIndex a c := by
  obtain ⟨x1, x2, x3, x4, x5⟩ := h1
  obtain ⟨y1, y2, y3, y4, y5⟩ := h2
  exact ⟨x1.trans y1, x2.trans y2, x3.trans y3, x4.trans y4, x5.trans y5⟩

theorem nodesSE_refl (a : Array TimerNode) : nodesSE a a :=
  ⟨rfl, fun _ => sameExceptIndex_refl _⟩

theorem nodesSE_trans {a b c : Array TimerNode}
    (h1 : nodesSE a b) (h2 : nodesSE b c) : nodesSE a c :=
  ⟨h1.1.trans h2.1, fun nid => sameExceptIndex_trans (h1.2 nid) (h2.2 nid)⟩

/-- Overwriting only the `index` field of a stored node relates the stores by
`nodesSE`. -/
theorem nodesSE_setIndex (a : Array TimerNode) (id i : Nat) :
    nodesSE (arrSet a id { arrGet a id with index := i }) a := by
  refine ⟨by simp, fun nid => ?_⟩
  by_cases hn : nid = id
  · subst hn
    by_cases hlt : nid < a.size
    · rw [arrGet_arrSet_self _ _ _ hlt]
      exact ⟨rfl, rfl, rfl, rfl, rfl⟩
    · unfold arrSet
      rw [dif_neg hlt]
      exact sameExceptIndex_refl _
  · rw [arrGet_arrSet_ne _ _ _ _ (Ne.symm hn)]
    exact sameExceptIndex_refl _

/-! ### Basic facts about the percolate loops -/

/-- `upLoop` preserves both sizes, never increases `wrap_pos`, keeps it
positive, returns the entry state if `wrap_pos` did not move, and changes
node stores only at `index` fields. -/
theorem upLoop_basic (fuel : Nat) :
    ∀ (s : HeapState) (tmpId wp : Nat), 1 ≤ wp →
      (upLoop fuel s tmpId wp).1.buff.size = s.buff.size ∧
      (upLoop fuel s tmpId wp).1.nodes.size = s.nodes.size ∧
      1 ≤ (upLoop fuel s tmpId wp).2 ∧ (upLoop fuel s tmpId wp).2 ≤ wp ∧
      ((upLoop fuel s tmpId wp).2 = wp → (upLoop fuel s tmpId wp).1 = s) ∧
      nodesSE (upLoop fuel s tmpId wp).1.nodes s.nodes := by
  induction fuel with
  | zero =>
    intro s tmpId wp hw
    exact ⟨rfl, rfl, hw, le_refl _, fun _ => rfl, nodesSE_refl _⟩
  | succ fuel ih =>
    intro s tmpId wp hw
    rw [upLoop]
    split
    · rename_i hcond
      have hpi : 1 ≤ wp / 2 := hcond.1
      have hlt : wp / 2 < wp := Nat.div_lt_self (by omega) (by omega)
      set s' : HeapState :=
        ⟨arrSet s.nodes (arrGet s.buff (wp / 2 - 1))
            { arrGet s.nodes (arrGet s.buff (wp / 2 - 1)) with index := wp - 1 },
         arrSet s.buff (wp - 1) (arrGet s.buff (wp / 2 - 1))⟩ with hs'
      obtain ⟨b1, b2, b3, b4, b5, b6⟩ := ih s' tmpId (wp / 2) hpi
      refine ⟨by rw [b1, hs']; simp, by rw [b2, hs']; simp, b3, by omega, ?_, ?_⟩
      · intro heq; omega
      · exact nodesSE_trans b6 (by rw [hs']; exact nodesSE_setIndex _ _ _)
    · exact ⟨rfl, rfl, hw, le_refl _, fun _ => rfl, nodesSE_refl _⟩

/-- If `find_min_child` moves, it returns a strictly larger, in-range child
position. -/
theorem find_min_child_ne (s : HeapState) (pos : Nat)
    (h : find_min_child s pos ≠ pos) :
    pos < find_min_child s pos ∧ find_min_child s pos < s.buff.size ∧
      (find_min_child s pos = 2 * pos + 1 ∨ find_min_child s pos = 2 * pos + 2) := by
  unfold find_min_child at *
  by_cases h1 : s.buff.size ≤ 2 * pos + 1
  · simp [h1] at h
  · by_cases h2 : s.buff.size ≤ 2 * pos + 1 + 1
    · simp [h1, h2] at h ⊢; omega
    · simp only [h1, if_false, h2] at h ⊢
      split <;> omega

/-- `downLoop` preserves both sizes, never decreases the returned `wrap_pos`
below `pos + 1`, returns the entry state if the hole did not move, and
changes node stores only at `index` fields. -/
theorem downLoop_basic (fuel : Nat) :
    ∀ (s : HeapState) (tmpId pos : Nat),
      (downLoop fuel s tmpId pos).1.buff.size = s.buff.size ∧
      (downLoop fuel s tmpId pos).1.nodes.size = s.nodes.size ∧
      pos + 1 ≤ (downLoop fuel s tmpId pos).2 ∧
      ((downLoop fuel s tmpId pos).2 = pos + 1 → (downLoop fuel s tmpId pos).1 = s) ∧
      nodesSE (downLoop fuel s tmpId pos).1.nodes s.nodes := by
  induction fuel with
  | zero =>
    intro s tmpId pos
    exact ⟨rfl, rfl, le_refl _, fun _ => rfl, nodesSE_refl _⟩
  | succ fuel ih =>
    intro s tmpId pos
    rw [downLoop]
    split
    · rename_i hcond
      have hfm := find_min_child_ne s pos hcond.1
      set c := find_min_child s pos with hc
      set s' : HeapState :=
        ⟨arrSet s.nodes (arrGet s.buff c)
            { arrGet s.nodes (arrGet s.buff c) with index := pos },
         arrSet s.buff pos (arrGet s.buff c)⟩ with hs'
      obtain ⟨b1, b2, b3, b4, b5⟩ := ih s' tmpId c
      refine ⟨by rw [b1, hs']; simp, by rw [b2, hs']; simp, by omega, ?_, ?_⟩
      · intro heq; omega
      · exact nodesSE_trans b5 (by rw [hs']; exact nodesSE_setIndex _ _ _)
    · exact ⟨rfl, rfl, le_refl _, fun _ => rfl, nodesSE_refl _⟩

/-! ### Slot-invariant preservation -/

/-- `upLoop` maintains the slot invariant outside the current hole
(`wrap_pos - 1`), the hole stays in range, and no non-hole position holds
`tmpId`. -/
theorem upLoop_slot (fuel : Nat) :
    ∀ (s : HeapState) (tmpId wp : Nat), 1 ≤ wp → wp - 1 < s.buff.size →
      (∀ i, i < s.buff.size → i ≠ wp - 1 →
        arrGet s.buff i < s.nodes.size ∧ (arrGet s.nodes (arrGet s.buff i)).index = i) →
      (∀ i, i < s.buff.size → i ≠ wp - 1 → arrGet s.buff i ≠ tmpId) →
      (upLoop fuel s tmpId wp).2 - 1 < (upLoop fuel s tmpId wp).1.buff.size ∧
      (∀ i, i < (upLoop fuel s tmpId wp).1.buff.size → i ≠ (upLoop fuel s tmpId wp).2 - 1 →
        arrGet (upLoop fuel s tmpId wp).1.buff i < (upLoop fuel s tmpId wp).1.nodes.size ∧
        (arrGet (upLoop fuel s tmpId wp).1.nodes
          (arrGet (upLoop fuel s tmpId wp).1.buff i)).index = i) ∧
      (∀ i, i < (upLoop fuel s tmpId wp).1.buff.size →
        i ≠ (upLoop fuel s tmpId wp).2 - 1 →
        arrGet (upLoop fuel s tmpId wp).1.buff i ≠ tmpId) := by
  induction fuel with
  | zero =>
    intro s tmpId wp _ hh hA2 hA4
    exact ⟨hh, hA2, hA4⟩
  | succ fuel ih =>
    intro s tmpId wp hw hh hA2 hA4
    simp only [upLoop]
    split
    · rename_i hcond
      have hpi : 1 ≤ wp / 2 := hcond.1
      have hwp2 : 2 ≤ wp := by omega
      have hplt : wp / 2 - 1 < wp - 1 := by omega
      have hpN : wp / 2 - 1 < s.buff.size := lt_trans hplt hh
      have hmoved := hA2 (wp / 2 - 1) hpN (by omega)
      apply ih
      · exact hpi
      · simpa using lt_trans hplt hh
      · intro i hi hip
        simp only [size_arrSet] at hi
        by_cases hih : i = wp - 1
        · subst hih
          constructor
          · rw [arrGet_arrSet_self _ _ _ hh]
            simpa using hmoved.1
          · rw [arrGet_arrSet_self _ _ _ hh,
              arrGet_arrSet_self _ _ _ hmoved.1]
        · have hbi : arrGet (arrSet s.buff (wp - 1) (arrGet s.buff (wp / 2 - 1))) i
              = arrGet s.buff i := arrGet_arrSet_ne _ _ _ _ (fun he => hih he.symm)
          have hiA2 := hA2 i hi hih
          have hne : arrGet s.buff i ≠ arrGet s.buff (wp / 2 - 1) := by
            intro he
            have := hA2 (wp / 2 - 1) hpN (by omega)
            rw [he] at hiA2
            omega
          constructor
          · rw [hbi]; simpa using hiA2.1
          · rw [hbi, arrGet_arrSet_ne _ _ _ _ (fun he => hne he.symm)]
            exact hiA2.2
      · intro i hi hip
        simp only [size_arrSet] at hi
        by_cases hih : i = wp - 1
        · subst hih
          rw [arrGet_arrSet_self _ _ _ hh]
          exact hA4 (wp / 2 - 1) hpN (by omega)
        · rw [arrGet_arrSet_ne _ _ _ _ (fun he => hih he.symm)]
          exact hA4 i hi hih
    · exact ⟨hh, hA2, hA4⟩

/-- `downLoop` maintains the slot invariant outside the current hole, the
hole stays in range, and no non-hole position holds `tmpId`. -/
theorem downLoop_slot (fuel : Nat) :
    ∀ (s : HeapState) (tmpId pos : Nat), pos < s.buff.size →
      (∀ i, i < s.buff.size → i ≠ pos →
        arrGet s.buff i < s.nodes.size ∧ (arrGet s.nodes (arrGet s.buff i)).index = i) →
      (∀ i, i < s.buff.size → i ≠ pos → arrGet s.buff i ≠ tmpId) →
      (downLoop fuel s tmpId pos).2 - 1 < (downLoop fuel s tmpId pos).1.buff.size ∧
      (∀ i, i < (downLoop fuel s tmpId pos).1.buff.size →
        i ≠ (downLoop fuel s tmpId pos).2 - 1 →
        arrGet (downLoop fuel s tmpId pos).1.buff i < (downLoop fuel s tmpId pos).1.nodes.size ∧
        (arrGet (downLoop fuel s tmpId pos).1.nodes
          (arrGet (downLoop fuel s tmpId pos).1.buff i)).index = i) ∧
      (∀ i, i < (downLoop fuel s tmpId pos).1.buff.size →
        i ≠ (downLoop fuel s tmpId pos).2 - 1 →
        arrGet (downLoop fuel s tmpId pos).1.buff i ≠ tmpId) := by
  induction fuel with
  | zero =>
    intro s tmpId pos hp hA2 hA4
    exact ⟨by simpa using hp, by simpa using hA2, by simpa using hA4⟩
  | succ fuel ih =>
    intro s tmpId pos hp hA2 hA4
    simp only [downLoop]
    split
    · rename_i hcond
      have hfm := find_min_child_ne s pos hcond.1
      have hcN : find_min_child s pos < s.buff.size := hfm.2.1
      have hcgt : pos < find_min_child s pos := hfm.1
      have hmoved := hA2 (find_min_child s pos) hcN (by omega)
      apply ih
      · simpa using hcN
      · intro i hi hic
        simp only [size_arrSet] at hi
        by_cases hih : i = pos
        · constructor
          · rw [hih, arrGet_arrSet_self _ _ _ hp]
            simpa using hmoved.1
          · rw [hih, arrGet_arrSet_self _ _ _ hp,
              arrGet_arrSet_self _ _ _ hmoved.1]
        · have hbi : arrGet (arrSet s.buff pos (arrGet s.buff (find_min_child s pos))) i
              = arrGet s.buff i := arrGet_arrSet_ne _ _ _ _ (fun he => hih he.symm)
          have hiA2 := hA2 i hi hih
          have hne : arrGet s.buff i ≠ arrGet s.buff (find_min_child s pos) := by
            intro he
            rw [he] at hiA2
            omega
          constructor
          · rw [hbi]; simpa using hiA2.1
          · rw [hbi, arrGet_arrSet_ne _ _ _ _ (fun he => hne he.symm)]
            exact hiA2.2
      · intro i hi hic
        simp only [size_arrSet] at hi
        by_cases hih : i = pos
        · rw [hih, arrGet_arrSet_self _ _ _ hp]
          exact hA4 (find_min_child s pos) hcN (by omega)
        · rw [arrGet_arrSet_ne _ _ _ _ (fun he => hih he.symm)]
          exact hA4 i hi hih
    · exact ⟨by simpa using hp, by simpa using hA2, by simpa using hA4⟩

/-- Writing `tmpId` (with its `index` field set) into the final hole restores
the full slot invariant. -/
theorem finalWrite_slotInv (r : HeapState) (hole tmpId : Nat)
    (htmp : tmpId < r.nodes.size) (hhole : hole < r.buff.size)
    (hA2 : ∀ i, i < r.buff.size → i ≠ hole →
      arrGet r.buff i < r.nodes.size ∧ (arrGet r.nodes (arrGet r.buff i)).index = i)
    (hA4 : ∀ i, i < r.buff.size → i ≠ hole → arrGet r.buff i ≠ tmpId) :
    SlotInv ⟨arrSet r.nodes tmpId { arrGet r.nodes tmpId with index := hole },
      arrSet r.buff hole tmpId⟩ := by
  intro i hi
  simp only [size_arrSet] at hi ⊢
  by_cases hih : i = hole
  · subst hih
    rw [arrGet_arrSet_self _ _ _ hhole, arrGet_arrSet_self _ _ _ htmp]
    exact ⟨htmp, rfl⟩
  · rw [arrGet_arrSet_ne _ _ _ _ (fun he => hih he.symm)]
    have h2 := hA2 i hi hih
    have h4 := hA4 i hi hih
    rw [arrGet_arrSet_ne _ _ _ _ (fun he => h4 he.symm)]
    exact h2

/-- The slot invariant at position `pos` forbids any other position from
holding the same node id. -/
theorem slotInv_notElsewhere {s : HeapState} (hs : SlotInv s) {pos : Nat}
    (hpos : pos < s.buff.size) :
    ∀ i, i < s.buff.size → i ≠ pos → arrGet s.buff i ≠ arrGet s.buff pos := by
  intro i hi hip he
  have h1 := (hs i hi).2
  have h2 := (hs pos hpos).2
  rw [he] at h1
  omega

/-- `percolate_up` preserves the slot invariant. -/
theorem percolate_up_slotInv (s : HeapState) (pos : Nat)
    (hs : SlotInv s) (hpos : pos < s.buff.size) : SlotInv (percolate_up s pos) := by
  have hroot := hs pos hpos
  have hA2 : ∀ i, i < s.buff.size → i ≠ pos + 1 - 1 →
      arrGet s.buff i < s.nodes.size ∧ (arrGet s.nodes (arrGet s.buff i)).index = i := by
    intro i hi _; exact hs i hi
  have hA4 : ∀ i, i < s.buff.size → i ≠ pos + 1 - 1 → arrGet s.buff i ≠ arrGet s.buff pos := by
    intro i hi hip
    exact slotInv_notElsewhere hs hpos i hi (by omega)
  have hloop := upLoop_slot (pos + 1) s (arrGet s.buff pos) (pos + 1) (by omega)
    (by simpa using hpos) hA2 hA4
  have hbasic := upLoop_basic (pos + 1) s (arrGet s.buff pos) (pos + 1) (by omega)
  unfold percolate_up
  split
  · rename_i hne
    exact finalWrite_slotInv _ _ _ (by rw [hbasic.2.1]; exact hroot.1) hloop.1
      hloop.2.1 hloop.2.2
  · rename_i hne
    have heq : (upLoop (pos + 1) s (arrGet s.buff pos) (pos + 1)).2 = pos + 1 := by
      have h1 := hbasic.2.2.1
      have h2 := hbasic.2.2.2.1
      omega
    rw [hbasic.2.2.2.2.1 heq]
    exact hs

/-- `percolate_down` preserves the slot invariant. -/
theorem percolate_down_slotInv (s : HeapState) (pos : Nat)
    (hs : SlotInv s) (hpos : pos < s.buff.size) : SlotInv (percolate_down s pos) := by
  have hroot := hs pos hpos
  have hA2 : ∀ i, i < s.buff.size → i ≠ pos →
      arrGet s.buff i < s.nodes.size ∧ (arrGet s.nodes (arrGet s.buff i)).index = i := by
    intro i hi _; exact hs i hi
  have hA4 := slotInv_notElsewhere hs hpos
  have hloop := downLoop_slot (s.buff.size + 1) s (arrGet s.buff pos) pos hpos hA2 hA4
  have hbasic := downLoop_basic (s.buff.size + 1) s (arrGet s.buff pos) pos
  unfold percolate_down
  split
  · rename_i hne
    exact finalWrite_slotInv _ _ _ (by rw [hbasic.2.1]; exact hroot.1) hloop.1
      hloop.2.1 hloop.2.2
  · rename_i hne
    have heq : (downLoop (s.buff.size + 1) s (arrGet s.buff pos) pos).2 = pos + 1 := by
      have h1 := hbasic.2.2.1
      omega
    rw [hbasic.2.2.2.1 heq]
    exact hs

theorem arrSet_oob {α : Type} (a : Array α) (i : Nat) (v : α) (h : ¬ i < a.size) :
    arrSet a i v = a := by
  unfold arrSet; rw [dif_neg h]

@[simp] theorem setNext_buff (s : HeapState) (id tp : Nat) :
    (setNext s id tp).buff = s.buff := rfl

@[simp] theorem setNext_nodes_size (s : HeapState) (id tp : Nat) :
    (setNext s id tp).nodes.size = s.nodes.size := by
  simp [setNext]

theorem setNext_nodes_ne (s : HeapState) (id tp nid : Nat) (h : nid ≠ id) :
    arrGet (setNext s id tp).nodes nid = arrGet s.nodes nid := by
  unfold setNext
  exact arrGet_arrSet_ne _ _ _ _ (Ne.symm h)

theorem setNext_nodes_self (s : HeapState) (id tp : Nat) (h : id < s.nodes.size) :
    arrGet (setNext s id tp).nodes id = { arrGet s.nodes id with next_tp := tp } := by
  unfold setNext
  exact arrGet_arrSet_self _ _ _ h

theorem setNext_index (s : HeapState) (id tp nid : Nat) :
    (arrGet (setNext s id tp).nodes nid).index = (arrGet s.nodes nid).index := by
  by_cases hn : nid = id
  · subst hn
    by_cases hlt : nid < s.nodes.size
    · rw [setNext_nodes_self _ _ _ hlt]
    · unfold setNext
      rw [arrSet_oob _ _ _ hlt]
  · rw [setNext_nodes_ne _ _ _ _ hn]

theorem setNext_slotInv {s : HeapState} (hs : SlotInv s) (id tp : Nat) :
    SlotInv (setNext s id tp) := by
  intro i hi
  simp only [setNext_buff] at hi ⊢
  have h := hs i hi
  refine ⟨by simpa using h.1, ?_⟩
  rw [setNext_index]
  exact h.2

/-- `push` preserves the slot invariant when the pushed handler is a valid
node id not already stored in the heap (as in `add_timer`, which always
pushes a freshly allocated node). -/
theorem push_slotInv {s : HeapState} (hs : SlotInv s) (id : Nat)
    (hid : id < s.nodes.size) (hmem : ¬ memB s.buff id) : SlotInv (push s id) := by
  intro i hi
  have hsz : (push s id).buff.size = s.buff.size + 1 := by simp [push]
  rw [hsz] at hi
  have hnsz : (push s id).nodes.size = s.nodes.size := by simp [push, setIndex]
  by_cases hie : i = s.buff.size
  · subst hie
    have hb : arrGet (push s id).buff s.buff.size = id := arrGet_push_self _ _
    rw [hb, hnsz]
    refine ⟨hid, ?_⟩
    show (arrGet (arrSet s.nodes id { arrGet s.nodes id with index := s.buff.size }) id).index
      = s.buff.size
    rw [arrGet_arrSet_self _ _ _ hid]
  · have hilt : i < s.buff.size := by omega
    have hb : arrGet (push s id).buff i = arrGet s.buff i := arrGet_push_lt _ _ _ hilt
    have h := hs i hilt
    have hne : arrGet s.buff i ≠ id := fun he => hmem ⟨i, hilt, he⟩
    rw [hb, hnsz]
    refine ⟨h.1, ?_⟩
    show (arrGet (arrSet s.nodes id { arrGet s.nodes id with index := s.buff.size })
      (arrGet s.buff i)).index = i
    rw [arrGet_arrSet_ne _ _ _ _ (fun he => hne he.symm)]
    exact h.2

/-- The `index` field of the pushed node right after `push`. -/
theorem push_index {s : HeapState} (id : Nat) (hid : id < s.nodes.size) :
    (arrGet (push s id).nodes id).index = s.buff.size := by
  show (arrGet (arrSet s.nodes id { arrGet s.nodes id with index := s.buff.size }) id).index
    = s.buff.size
  rw [arrGet_arrSet_self _ _ _ hid]

/-- `push_and_sort` preserves the slot invariant under the same freshness
conditions. -/
theorem push_and_sort_slotInv {s : HeapState} (hs : SlotInv s) (id : Nat)
    (hid : id < s.nodes.size) (hmem : ¬ memB s.buff id) :
    SlotInv (push_and_sort s id) := by
  unfold push_and_sort
  rw [push_index id hid]
  exact percolate_up_slotInv _ _ (push_slotInv hs id hid hmem) (by simp [push])

/-- `update_top` preserves the slot invariant on a non-empty heap. -/
theorem update_top_slotInv {s : HeapState} (hs : SlotInv s) (tp : Nat)
    (hne : 0 < s.buff.size) : SlotInv (update_top s tp) := by
  unfold update_top
  exact percolate_down_slotInv _ _ (setNext_slotInv hs _ _) (by simpa using hne)

/-- `update_place` preserves the slot invariant for a node stored in the
heap. -/
theorem update_place_slotInv {s : HeapState} (hs : SlotInv s) (id tp : Nat)
    (hmem : memB s.buff id) : SlotInv (update_place s id tp) := by
  obtain ⟨i0, hi0, hbi⟩ := hmem
  have h0 := hs i0 hi0
  rw [hbi] at h0
  have hidx : (arrGet (setNext s id tp).nodes id).index = i0 := by
    rw [setNext_index]; exact h0.2
  unfold update_place
  split
  · rw [hidx]
    exact percolate_down_slotInv _ _ (setNext_slotInv hs _ _) (by simpa using hi0)
  · split
    · rw [hidx]
      exact percolate_up_slotInv _ _ (setNext_slotInv hs _ _) (by simpa using hi0)
    · exact setNext_slotInv hs _ _

/-! ### Size and field preservation through the percolate operations -/

theorem percolate_up_sizes (s : HeapState) (pos : Nat) :
    (percolate_up s pos).buff.size = s.buff.size ∧
    (percolate_up s pos).nodes.size = s.nodes.size := by
  have hb := upLoop_basic (pos + 1) s (arrGet s.buff pos) (pos + 1) (by omega)
  unfold percolate_up
  split
  · constructor
    · simp only [size_arrSet]; exact hb.1
    · simp only [size_arrSet]; exact hb.2.1
  · exact ⟨hb.1, hb.2.1⟩

theorem percolate_down_sizes (s : HeapState) (pos : Nat) :
    (percolate_down s pos).buff.size = s.buff.size ∧
    (percolate_down s pos).nodes.size = s.nodes.size := by
  have hb := downLoop_basic (s.buff.size + 1) s (arrGet s.buff pos) pos
  unfold percolate_down
  split
  · constructor
    · simp only [size_arrSet]; exact hb.1
    · simp only [size_arrSet]; exact hb.2.1
  · exact ⟨hb.1, hb.2.1⟩

theorem percolate_up_nodesSE (s : HeapState) (pos : Nat) :
    nodesSE (percolate_up s pos).nodes s.nodes := by
  have hb := upLoop_basic (pos + 1) s (arrGet s.buff pos) (pos + 1) (by omega)
  unfold percolate_up
  split
  · exact nodesSE_trans (nodesSE_setIndex _ _ _) hb.2.2.2.2.2
  · exact hb.2.2.2.2.2

theorem percolate_down_nodesSE (s : HeapState) (pos : Nat) :
    nodesSE (percolate_down s pos).nodes s.nodes := by
  have hb := downLoop_basic (s.buff.size + 1) s (arrGet s.buff pos) pos
  unfold percolate_down
  split
  · exact nodesSE_trans (nodesSE_setIndex _ _ _) hb.2.2.2.2
  · exact hb.2.2.2.2

theorem heapEmpty_iff (s : HeapState) : heapEmpty s = true ↔ s.buff.size = 0 := by
  unfold heapEmpty
  simp [Array.isEmpty]

theorem top?_eq_some {s : HeapState} (h : 0 < s.buff.size) :
    top? s = some (arrGet s.buff 0) := by
  unfold top? arrGet
  rw [dif_pos h]
  exact Array.getElem?_eq_getElem h

theorem top?_eq_none {s : HeapState} (h : s.buff.size = 0) : top? s = none := by
  unfold top?
  rw [Array.getElem?_eq_none_iff]
  omega

theorem setNext_interval (s : HeapState) (id tp nid : Nat) :
    (arrGet (setNext s id tp).nodes nid).interval_ns = (arrGet s.nodes nid).interval_ns := by
  by_cases hn : nid = id
  · subst hn
    by_cases hlt : nid < s.nodes.size
    · rw [setNext_nodes_self _ _ _ hlt]
    · unfold setNext
      rw [arrSet_oob _ _ _ hlt]
  · rw [setNext_nodes_ne _ _ _ _ hn]

theorem setNext_running (s : HeapState) (id tp nid : Nat) :
    (arrGet (setNext s id tp).nodes nid).running = (arrGet s.nodes nid).running := by
  by_cases hn : nid = id
  · subst hn
    by_cases hlt : nid < s.nodes.size
    · rw [setNext_nodes_self _ _ _ hlt]
    · unfold setNext
      rw [arrSet_oob _ _ _ hlt]
  · rw [setNext_nodes_ne _ _ _ _ hn]

/-- After `update_place s id tp`, the repositioned node's `next_tp` is `tp`. -/
theorem update_place_next_tp (s : HeapState) (id tp : Nat) (hid : id < s.nodes.size) :
    (arrGet (update_place s id tp).nodes id).next_tp = tp := by
  unfold update_place
  split
  · have h := (percolate_down_nodesSE (setNext s id tp)
      (arrGet (setNext s id tp).nodes id).index).2 id
    rw [h.2.2.2.1, setNext_nodes_self _ _ _ hid]
  · split
    · have h := (percolate_up_nodesSE (setNext s id tp)
        (arrGet (setNext s id tp).nodes id).index).2 id
      rw [h.2.2.2.1, setNext_nodes_self _ _ _ hid]
    · rw [setNext_nodes_self _ _ _ hid]

/-- `update_place` never changes any node's `interval_ns`. -/
theorem update_place_interval (s : HeapState) (id tp nid : Nat) :
    (arrGet (update_place s id tp).nodes nid).interval_ns
      = (arrGet s.nodes nid).interval_ns := by
  unfold update_place
  split
  · have h := (percolate_down_nodesSE (setNext s id tp)
      (arrGet (setNext s id tp).nodes id).index).2 nid
    rw [h.2.1, setNext_interval]
  · split
    · have h := (percolate_up_nodesSE (setNext s id tp)
        (arrGet (setNext s id tp).nodes id).index).2 nid
      rw [h.2.1, setNext_interval]
    · rw [setNext_interval]

/-- `update_place` changes no field but `index` of any node other than the
repositioned one. -/
theorem update_place_other (s : HeapState) (id tp nid : Nat) (h : nid ≠ id) :
    sameExceptIndex (arrGet (update_place s id tp).nodes nid) (arrGet s.nodes nid) := by
  unfold update_place
  split
  · have hp := (percolate_down_nodesSE (setNext s id tp)
      (arrGet (setNext s id tp).nodes id).index).2 nid
    rw [setNext_nodes_ne _ _ _ _ h] at hp
    exact hp
  · split
    · have hp := (percolate_up_nodesSE (setNext s id tp)
        (arrGet (setNext s id tp).nodes id).index).2 nid
      rw [setNext_nodes_ne _ _ _ _ h] at hp
      exact hp
    · rw [setNext_nodes_ne _ _ _ _ h]
      exact sameExceptIndex_refl _

theorem update_place_sizes (s : HeapState) (id tp : Nat) :
    (update_place s id tp).buff.size = s.buff.size ∧
    (update_place s id tp).nodes.size = s.nodes.size := by
  unfold update_place
  split
  · have h := percolate_down_sizes (setNext s id tp)
      (arrGet (setNext s id tp).nodes id).index
    simpa using h
  · split
    · have h := percolate_up_sizes (setNext s id tp)
        (arrGet (setNext s id tp).nodes id).index
      simpa using h
    · simp

/-! ## Claim theorems -/

/-- **C2** (confirmed).  Slot invariant: after every heap mutation — `push`
(insert of a fresh node, as `add_timer` performs it), `push_and_sort`
(insert with sift-up), `update_top` (replace-root-deadline) and
`update_place` (reposition), including all the sift moves they trigger —
every node `v` stored in the heap satisfies
`heap.slotAt(v.heap_slot) == v` (predicate `SlotOk`), and the indexed slot
invariant `SlotInv` is preserved. -/
theorem claim_C2_slot_invariant (s : HeapState) (hs : SlotInv s) :
    (∀ id, id < s.nodes.size → ¬ memB s.buff id →
      SlotInv (push s id) ∧ SlotOk (push s id)) ∧
    (∀ id, id < s.nodes.size → ¬ memB s.buff id →
      SlotInv (push_and_sort s id) ∧ SlotOk (push_and_sort s id)) ∧
    (∀ tp, 0 < s.buff.size →
      SlotInv (update_top s tp) ∧ SlotOk (update_top s tp)) ∧
    (∀ id tp, memB s.buff id →
      SlotInv (update_place s id tp) ∧ SlotOk (update_place s id tp)) := by
  refine ⟨fun id hid hmem => ?_, fun id hid hmem => ?_, fun tp hpos => ?_,
    fun id tp hmem => ?_⟩
  · have h := push_slotInv hs id hid hmem
    exact ⟨h, slotInv_slotOk h⟩
  · have h := push_and_sort_slotInv hs id hid hmem
    exact ⟨h, slotInv_slotOk h⟩
  · have h := update_top_slotInv hs tp hpos
    exact ⟨h, slotInv_slotOk h⟩
  · have h := update_place_slotInv hs id tp hmem
    exact ⟨h, slotInv_slotOk h⟩

/-- Concrete state for witnesses: nodes `0` (deadline 5, slot 0) and `1`
(deadline 7, slot 1) in the heap, node `2` allocated but not stored. -/
def witnessState : HeapState :=
  ⟨#[{ TimerNode.init with next_tp := 5, index := 0 },
     { TimerNode.init with next_tp := 7, index := 1 },
     { TimerNode.init with next_tp := 3, index := 0 }],
   #[0, 1]⟩

/-- Witness for C2 at the concrete state `witnessState`. -/
theorem claim_C2_witness :
    SlotInv (push_and_sort witnessState 2) ∧ SlotOk (update_place witnessState 1 3) :=
  ⟨((claim_C2_slot_invariant witnessState (by decide)).2.1 2 (by decide) (by decide)).1,
   ((claim_C2_slot_invariant witnessState (by decide)).2.2.2 1 3 (by decide)).2⟩

/-- **C7** (confirmed).  For every null handle, `start`, `stop` and
`set_interval` are no-ops returning the success value `0` and leave the heap
and every node unchanged. -/
theorem claim_C7_null_handle (s : HeapState) (now ms : Nat) :
    start s none now = (0, s) ∧ stop s none = (0, s) ∧
    set_interval s none ms now = (0, s) :=
  ⟨rfl, rfl, rfl⟩

/-- **C8** (confirmed).  `top` fails (`EmptyHeapError`, modelled as `none`)
exactly when the heap is empty, and the `check_task` claim-next-due-task step
calls `top` only under a non-emptiness guard, so the error branch is
unreachable: no iteration outcome is `emptyHeapError`. -/
theorem claim_C8_empty_heap_guard (s : HeapState) (now : Nat) :
    (top? s = none ↔ heapEmpty s = true) ∧
    (check_task_step s now).1 ≠ CheckResult.emptyHeapError := by
  constructor
  · by_cases h : s.buff.size = 0
    · simp [top?_eq_none h, (heapEmpty_iff s).mpr h]
    · have hpos : 0 < s.buff.size := by omega
      rw [top?_eq_some hpos]
      simp [heapEmpty_iff, h]
  · unfold check_task_step
    by_cases h : heapEmpty s = true
    · simp [h]
    · have hpos : 0 < s.buff.size := by
        rcases Nat.eq_zero_or_pos s.buff.size with h0 | h0
        · exact absurd ((heapEmpty_iff s).mpr h0) h
        · exact h0
      rw [top?_eq_some hpos]
      dsimp only
      split
      · simp
      · split
        · simp
        · split <;> simp

/-- C4, counterexample to the claim as stated: on a valid handle,
`set_interval(4295)` stores `4295 * 10^6 mod 2^32 = 32704` nanoseconds (the
product is computed in 32-bit `unsigned` arithmetic), so
`current_interval()` returns `0`, not `4295`, and the stored interval is not
the lossless conversion `4295 * 10^6`. -/
theorem claim_C4_counterexample :
    interval_query (set_interval witnessState (some 0) 4295 0).2 0 = 0 ∧
    (arrGet (set_interval witnessState (some 0) 4295 0).2.nodes 0).interval_ns = 32704 ∧
    (0 : Nat) ≠ 4295 ∧ (32704 : Nat) ≠ 4295 * 1000 * 1000 := by
  decide

/-- **C4** (amended).  After `set_interval(ms)` on a valid handle the node
stores `ms * 10^6 mod 2^32` nanoseconds (the product is `unsigned` 32-bit),
and `current_interval()` returns `ms` exactly when `ms * 10^6` does not
overflow 32 bits (i.e. `ms ≤ 4294`). -/
theorem claim_C4_set_interval_roundtrip (s : HeapState) (id ms now : Nat)
    (hid : id < s.nodes.size) (hms : ms < U32) :
    (arrGet (set_interval s (some id) ms now).2.nodes id).interval_ns
        = ms * 1000 * 1000 % U32 ∧
    (interval_query (set_interval s (some id) ms now).2 id = ms ↔
      ms * 1000 * 1000 < U32) := by
  have hstep : (set_interval s (some id) ms now).2 =
      update_place (HeapState.mk (arrSet s.nodes id
          { arrGet s.nodes id with interval_ns := ms * 1000 * 1000 % U32 }) s.buff)
        id ((now + ms * 1000 * 1000 % U32) % U64) := rfl
  have hival : (arrGet (set_interval s (some id) ms now).2.nodes id).interval_ns
      = ms * 1000 * 1000 % U32 := by
    rw [hstep, update_place_interval]
    show (arrGet (arrSet s.nodes id
      { arrGet s.nodes id with interval_ns := ms * 1000 * 1000 % U32 }) id).interval_ns = _
    rw [arrGet_arrSet_self _ _ _ hid]
  refine ⟨hival, ?_⟩
  unfold interval_query
  rw [hival]
  have hU32 : U32 = 4294967296 := by norm_num [U32]
  constructor
  · intro h
    by_contra hge
    push_neg at hge
    have hw : ms * 1000 * 1000 % U32 < U32 := Nat.mod_lt _ (by norm_num [U32])
    have h1 : ms * 1000 * 1000 % U32 / 1000 / 1000 ≤ 4294967295 / 1000 / 1000 := by
      apply Nat.div_le_div_right
      apply Nat.div_le_div_right
      omega
    have h2 : (4294967295 : Nat) / 1000 / 1000 = 4294 := by norm_num
    have h3 : 4295 ≤ ms := by omega
    have h4 : ms * 1000 * 1000 % U32 / 1000 / 1000 % U32 ≤ 4294 := by
      calc ms * 1000 * 1000 % U32 / 1000 / 1000 % U32
          ≤ ms * 1000 * 1000 % U32 / 1000 / 1000 := Nat.mod_le _ _
        _ ≤ 4294 := by omega
    omega
  · intro h
    rw [Nat.mod_eq_of_lt h]
    have h1 : ms * 1000 * 1000 / 1000 = ms * 1000 := Nat.mul_div_cancel _ (by norm_num)
    have h2 : ms * 1000 / 1000 = ms := Nat.mul_div_cancel _ (by norm_num)
    rw [h1, h2, Nat.mod_eq_of_lt hms]

/-- Witness for C4 (amended) at `ms = 100` on `witnessState`. -/
theorem claim_C4_witness :
    (arrGet (set_interval witnessState (some 0) 100 7).2.nodes 0).interval_ns = 100000000 ∧
    interval_query (set_interval witnessState (some 0) 100 7).2 0 = 100 := by
  have h := claim_C4_set_interval_roundtrip witnessState 0 100 7 (by decide) (by decide)
  exact ⟨by rw [h.1]; norm_num [U32], h.2.mpr (by decide)⟩

/-- **C10** (confirmed).  `add_timer` stores `interval_ms * 10^6`
nanoseconds computed in 64-bit arithmetic, hence without overflow for the
whole `unsigned` range of `interval_ms`, and `current_interval()` read from
a freshly registered timer returns `interval_ms` exactly. -/
theorem claim_C10_add_timer_interval (s : HeapState) (nm : String) (ims dms : Nat)
    (hims : ims < U32) :
    (arrGet (add_timer s nm ims dms).1.nodes (add_timer s nm ims dms).2).interval_ns
      = 1000 * 1000 * ims ∧
    1000 * 1000 * ims < U64 ∧
    interval_query (add_timer s nm ims dms).1 (add_timer s nm ims dms).2 = ims := by
  have hlt : 1000 * 1000 * ims < U64 := by
    have h1 : 1000 * 1000 * ims < 1000 * 1000 * U32 :=
      mul_lt_mul_of_pos_left hims (by norm_num)
    have h2 : 1000 * 1000 * U32 < U64 := by norm_num [U32, U64]
    omega
  have hid : (add_timer s nm ims dms).2 = s.nodes.size := rfl
  have hnode : arrGet (add_timer s nm ims dms).1.nodes (add_timer s nm ims dms).2
      = { TimerNode.init with
            name := nm
            interval_ns := 1000 * 1000 * ims % U64
            delay_ns := 1000 * 1000 * dms % U64
            index := s.buff.size } := by
    show arrGet (arrSet (s.nodes.push _) s.nodes.size _) s.nodes.size = _
    rw [arrGet_arrSet_self _ _ _ (by simp), arrGet_push_self]
  have hmod : 1000 * 1000 * ims % U64 = 1000 * 1000 * ims := Nat.mod_eq_of_lt hlt
  refine ⟨by rw [hnode]; simpa using hmod, hlt, ?_⟩
  unfold interval_query
  rw [hnode]
  show 1000 * 1000 * ims % U64 / 1000 / 1000 % U32 = ims
  rw [hmod, show 1000 * 1000 * ims = ims * 1000 * 1000 by ring]
  rw [Nat.mul_div_cancel _ (by norm_num), Nat.mul_div_cancel _ (by norm_num),
    Nat.mod_eq_of_lt hims]

/-- Witness for C10 at `interval_ms = 5000000` (a value on which the
`set_interval` path would overflow) on `witnessState`. -/
theorem claim_C10_witness :
    (arrGet (add_timer witnessState "w" 5000000 0).1.nodes
      (add_timer witnessState "w" 5000000 0).2).interval_ns = 5000000000000 ∧
    interval_query (add_timer witnessState "w" 5000000 0).1
      (add_timer witnessState "w" 5000000 0).2 = 5000000 := by
  have h := claim_C10_add_timer_interval witnessState "w" 5000000 0 (by norm_num [U32])
  exact ⟨by rw [h.1], h.2.2⟩

/-- Characterization of the `check_task` iteration on a due, non-empty
root: the deadline is advanced, and the `running` flag consulted is the one
of the node at the root of the *updated* heap (the aliasing reference of the
C++), while the skip/dispatch outcome carries the originally claimed id. -/
theorem check_task_step_due {s : HeapState} {now : Nat} (hpos : 0 < s.buff.size)
    (hdue : (nodeAt s 0).next_tp ≤ now) :
    check_task_step s now =
      (if (arrGet (update_top s (nextDeadline (nodeAt s 0) now)).nodes
            (arrGet (update_top s (nextDeadline (nodeAt s 0) now)).buff 0)).running = true
        then CheckResult.skip (arrGet s.buff 0)
        else CheckResult.dispatch (arrGet s.buff 0),
       update_top s (nextDeadline (nodeAt s 0) now)) := by
  unfold check_task_step nodeAt
  have hne : ¬ heapEmpty s = true := by
    rw [heapEmpty_iff]; omega
  rw [if_neg hne, top?_eq_some hpos]
  dsimp only
  have hdue' : (arrGet s.nodes (arrGet s.buff 0)).next_tp ≤ now := hdue
  rw [if_neg (not_lt.mpr hdue')]
  split <;> rfl

/-- `update_top` writes the given deadline to the (old) root node. -/
theorem update_top_next_tp {s : HeapState} (hv : arrGet s.buff 0 < s.nodes.size)
    (tp : Nat) :
    (arrGet (update_top s tp).nodes (arrGet s.buff 0)).next_tp = tp := by
  unfold update_top
  have h := (percolate_down_nodesSE (setNext s (arrGet s.buff 0) tp) 0).2 (arrGet s.buff 0)
  rw [h.2.2.2.1]
  rw [show (setNext s (arrGet s.buff 0) tp).nodes
    = arrSet s.nodes (arrGet s.buff 0)
        { arrGet s.nodes (arrGet s.buff 0) with next_tp := tp } from rfl]
  rw [arrGet_arrSet_self _ _ _ hv]

/-- `update_top` never changes any node's `running` flag. -/
theorem update_top_running (s : HeapState) (tp nid : Nat) :
    (arrGet (update_top s tp).nodes nid).running = (arrGet s.nodes nid).running := by
  unfold update_top
  have h := (percolate_down_nodesSE (setNext s (arrGet s.buff 0) tp) 0).2 nid
  rw [h.2.2.2.2]
  exact setNext_running _ _ _ _

/-- **C5** (confirmed).  `update_place` (the spec's `reposition`) sets
`next_fire` to the new deadline; strictly greater triggers exactly the
sift-down of that node, strictly smaller exactly the sift-up, and an equal
value leaves the whole state (heap storage and all nodes) unchanged. -/
theorem claim_C5_reposition (s : HeapState) (id tp : Nat) (hid : id < s.nodes.size) :
    (arrGet (update_place s id tp).nodes id).next_tp = tp ∧
    ((arrGet s.nodes id).next_tp < tp →
      update_place s id tp
        = percolate_down (setNext s id tp) (arrGet (setNext s id tp).nodes id).index) ∧
    (tp < (arrGet s.nodes id).next_tp →
      update_place s id tp
        = percolate_up (setNext s id tp) (arrGet (setNext s id tp).nodes id).index) ∧
    (tp = (arrGet s.nodes id).next_tp → update_place s id tp = s) := by
  refine ⟨update_place_next_tp s id tp hid, fun h => ?_, fun h => ?_, fun h => ?_⟩
  · unfold update_place
    rw [if_pos h]
  · unfold update_place
    rw [if_neg (by omega), if_pos h]
  · unfold update_place
    rw [if_neg (by omega), if_neg (by omega)]
    unfold setNext
    rw [h]
    rw [show ({ arrGet s.nodes id with next_tp := (arrGet s.nodes id).next_tp })
      = arrGet s.nodes id from rfl]
    rw [arrSet_arrGet_self _ _ hid]

/-- Witness for C5: on `witnessState`, repositioning node 0 to 3 yields
deadline 3, and repositioning to its current deadline 5 changes nothing. -/
theorem claim_C5_witness :
    (arrGet (update_place witnessState 0 3).nodes 0).next_tp = 3 ∧
    update_place witnessState 0 5 = witnessState := by
  have h1 := claim_C5_reposition witnessState 0 3 (by decide)
  have h2 := claim_C5_reposition witnessState 0 5 (by decide)
  exact ⟨h1.1, h2.2.2.2 (by decide)⟩

/-- Failing input for C6: task A (node 0) is due at 5 with interval 10 ns
and its previous invocation still running; task B (node 1) is idle with
deadline 8. -/
def c6State : HeapState :=
  ⟨#[{ TimerNode.init with next_tp := 5, interval_ns := 10, index := 0, running := true },
     { TimerNode.init with next_tp := 8, index := 1 }],
   #[0, 1]⟩

/-- **C6** (code bug).  The claim states the intended single-flight
behaviour — and so does the comment right above `timer.hpp` line 330 ("a
task that is still running is deferred to the next cycle") — but the code
reads the `running` flag through `handler`, a reference to `buff_[0]`,
*after* `update_top` has moved the claimed node away from the root
(lines 318/330).  At `c6State` with `now = 7`: node A (running) is claimed
and its deadline advanced to `7 + 10 = 17`, node B (idle) percolates to the
root, the flag consulted is B's `false`, and the step returns A for
dispatch — its callback would run concurrently with its own previous
invocation instead of being skipped. -/
theorem claim_C6_code_behavior :
    (check_task_step c6State 7).1 = CheckResult.dispatch 0 ∧
    (check_task_step c6State 7).1 ≠ CheckResult.skip 0 ∧
    (arrGet c6State.nodes 0).running = true ∧
    (arrGet (check_task_step c6State 7).2.nodes 0).running = true ∧
    (arrGet (check_task_step c6State 7).2.nodes 0).next_tp = 17 ∧
    arrGet (check_task_step c6State 7).2.buff 0 = 1 ∧
    (arrGet (check_task_step c6State 7).2.nodes 1).running = false := by
  decide

/-- Concrete state for C1: one task with current deadline 5 and interval
10 ns (not running). -/
def c1State : HeapState :=
  ⟨#[{ TimerNode.init with next_tp := 5, interval_ns := 10, index := 0 }], #[0]⟩

/-- C1, counterexample to the claim as stated: the root is due at `now = 7`
with `current_deadline = 5` and `interval = 10`; the code replaces the root
deadline by `now + interval = 17`, not `current_deadline + interval = 15`. -/
theorem claim_C1_counterexample :
    (arrGet (check_task_step c1State 7).2.nodes 0).next_tp = 17 ∧
    (arrGet c1State.nodes 0).next_tp + (arrGet c1State.nodes 0).interval_ns = 15 ∧
    (17 : Nat) ≠ 15 := by
  decide

/-- The one-shot scenario of C1: `interval_ms = 0, delay_ms = 0`,
registered into an empty scheduler and started at time 100. -/
def oneShotReg : HeapState × Nat := add_timer ⟨#[], #[]⟩ "one" 0 0

/-- The one-shot task's state after `start` at time 100. -/
def oneShotStarted : HeapState := (start oneShotReg.1 (some oneShotReg.2) 100).2

/-- The step outcome observing the one-shot task due at time 100. -/
def oneShotFired : CheckResult × HeapState := check_task_step oneShotStarted 100

/-- The parked state the one-shot scenario reaches after its single
firing. -/
def oneShotParked : HeapState :=
  ⟨#[{ name := "one", index := 0, interval_ns := 0, delay_ns := 0,
       next_tp := UINT64MAX, running := false }], #[0]⟩

/-- **C1** (amended).  When a worker claims the heap root and finds it due,
the next deadline is `+∞` if the interval is zero, else `now + interval`
(the *observed current time* plus the interval, 64-bit — not
`current_deadline + interval`), and the root's deadline is already replaced
in the state the step returns, whatever the dispatch decision.  In
particular a task registered with `interval_ms = 0` is dispatched, its
`next_fire` becomes `+∞`, it is never due again at any later clock value,
and each further `start` permits exactly one additional firing. -/
theorem claim_C1_next_deadline (s : HeapState) (now : Nat)
    (hpos : 0 < s.buff.size) (hv : arrGet s.buff 0 < s.nodes.size)
    (hdue : (nodeAt s 0).next_tp ≤ now) :
    ((arrGet (check_task_step s now).2.nodes (arrGet s.buff 0)).next_tp
        = (if (nodeAt s 0).interval_ns = 0 then UINT64MAX
           else (now + (nodeAt s 0).interval_ns) % U64) ∧
     ((check_task_step s now).1 = CheckResult.skip (arrGet s.buff 0) ∨
      (check_task_step s now).1 = CheckResult.dispatch (arrGet s.buff 0)) ∧
     ((nodeAt s 0).interval_ns = 0 →
       (arrGet (check_task_step s now).2.nodes (arrGet s.buff 0)).next_tp = UINT64MAX)) ∧
    (oneShotFired.1 = CheckResult.dispatch oneShotReg.2 ∧
     (arrGet oneShotFired.2.nodes oneShotReg.2).next_tp = UINT64MAX ∧
     (∀ now2, now2 < UINT64MAX →
        (check_task_step oneShotFired.2 now2).1 = CheckResult.notDue) ∧
     (check_task_step (start oneShotFired.2 (some oneShotReg.2) 200).2 200).1
        = CheckResult.dispatch oneShotReg.2 ∧
     (arrGet (check_task_step (start oneShotFired.2 (some oneShotReg.2) 200).2 200).2.nodes
        oneShotReg.2).next_tp = UINT64MAX) := by
  have hstep := check_task_step_due hpos hdue
  have hnext : (arrGet (check_task_step s now).2.nodes (arrGet s.buff 0)).next_tp
      = nextDeadline (nodeAt s 0) now := by
    rw [hstep]
    exact update_top_next_tp hv _
  constructor
  · refine ⟨hnext, ?_, fun h0 => ?_⟩
    · rw [hstep]
      dsimp only
      split
      · exact Or.inl rfl
      · exact Or.inr rfl
    · rw [hnext]
      unfold nextDeadline
      rw [if_pos h0]
  · refine ⟨by decide, by decide, ?_, by decide, by decide⟩
    intro now2 h2
    have hparked : oneShotFired.2 = oneShotParked := by decide
    rw [hparked]
    unfold check_task_step
    rw [if_neg (by decide), top?_eq_some (by decide)]
    dsimp only
    rw [if_pos (by
      rw [show (arrGet oneShotParked.nodes (arrGet oneShotParked.buff 0)).next_tp
        = UINT64MAX from by decide]
      exact h2)]

/-- Witness for C1 (amended) at `c1State`, `now = 7`: the new root deadline
is `(7 + 10) mod 2^64`. -/
theorem claim_C1_witness :
    (arrGet (check_task_step c1State 7).2.nodes 0).next_tp
      = (7 + (nodeAt c1State 0).interval_ns) % U64 := by
  have h := claim_C1_next_deadline c1State 7 (by decide) (by decide) (by decide)
  have h1 := h.1.1
  rw [if_neg (by decide)] at h1
  exact h1

/-! ### Membership preservation through the percolate operations -/

/-- One hole-shift step of a percolate loop preserves the membership of the
virtual array obtained by putting `tmpId` into the hole. -/
theorem memB_set_out (a : Array Nat) (h p t : Nat) (hh : h < a.size) (hp : p < a.size)
    (hne : p ≠ h) (x : Nat) :
    memB (arrSet (arrSet a h (arrGet a p)) p t) x ↔ memB (arrSet a h t) x := by
  have hp' : p < (arrSet a h (arrGet a p)).size := by simpa using hp
  constructor
  · rintro ⟨i, hi, he⟩
    simp only [size_arrSet] at hi
    by_cases hip : i = p
    · rw [hip, arrGet_arrSet_self _ _ _ hp'] at he
      exact ⟨h, by simpa using hh, by rw [arrGet_arrSet_self _ _ _ hh]; exact he⟩
    · rw [arrGet_arrSet_ne _ _ _ _ (fun hq => hip hq.symm)] at he
      by_cases hih : i = h
      · rw [hih, arrGet_arrSet_self _ _ _ hh] at he
        refine ⟨p, by simpa using hp, ?_⟩
        rw [arrGet_arrSet_ne _ _ _ _ (fun hq => hne hq.symm)]
        exact he
      · rw [arrGet_arrSet_ne _ _ _ _ (fun hq => hih hq.symm)] at he
        refine ⟨i, by simpa using hi, ?_⟩
        rw [arrGet_arrSet_ne _ _ _ _ (fun hq => hih hq.symm)]
        exact he
  · rintro ⟨i, hi, he⟩
    simp only [size_arrSet] at hi
    by_cases hih : i = h
    · rw [hih, arrGet_arrSet_self _ _ _ hh] at he
      refine ⟨p, by simpa using hp, ?_⟩
      rw [arrGet_arrSet_self _ _ _ hp']
      exact he
    · rw [arrGet_arrSet_ne _ _ _ _ (fun hq => hih hq.symm)] at he
      by_cases hip : i = p
      · rw [hip] at he
        refine ⟨h, by simpa using hh, ?_⟩
        rw [arrGet_arrSet_ne _ _ _ _ hne, arrGet_arrSet_self _ _ _ hh]
        exact he
      · refine ⟨i, by simpa using hi, ?_⟩
        rw [arrGet_arrSet_ne _ _ _ _ (fun hq => hip hq.symm),
          arrGet_arrSet_ne _ _ _ _ (fun hq => hih hq.symm)]
        exact he

/-- Throughout `upLoop`, the virtual array with `tmpId` written into the
current hole has unchanged membership. -/
theorem upLoop_memB (fuel : Nat) :
    ∀ (s : HeapState) (tmpId wp : Nat), 1 ≤ wp → wp - 1 < s.buff.size → ∀ x,
      memB (arrSet (upLoop fuel s tmpId wp).1.buff
        ((upLoop fuel s tmpId wp).2 - 1) tmpId) x
      ↔ memB (arrSet s.buff (wp - 1) tmpId) x := by
  induction fuel with
  | zero =>
    intro s tmpId wp _ _ x
    exact Iff.rfl
  | succ fuel ih =>
    intro s tmpId wp hw hh x
    simp only [upLoop]
    split
    · rename_i hcond
      have hpi : 1 ≤ wp / 2 := hcond.1
      have hplt : wp / 2 - 1 < wp - 1 := by omega
      have hstep := ih
        ⟨arrSet s.nodes (arrGet s.buff (wp / 2 - 1))
            { arrGet s.nodes (arrGet s.buff (wp / 2 - 1)) with index := wp - 1 },
         arrSet s.buff (wp - 1) (arrGet s.buff (wp / 2 - 1))⟩
        tmpId (wp / 2) hpi (by simpa using lt_trans hplt hh) x
      rw [hstep]
      exact memB_set_out s.buff (wp - 1) (wp / 2 - 1) tmpId hh
        (lt_trans hplt hh) (by omega) x
    · exact Iff.rfl

/-- Throughout `downLoop`, the virtual array with `tmpId` written into the
current hole has unchanged membership. -/
theorem downLoop_memB (fuel : Nat) :
    ∀ (s : HeapState) (tmpId pos : Nat), pos < s.buff.size → ∀ x,
      memB (arrSet (downLoop fuel s tmpId pos).1.buff
        ((downLoop fuel s tmpId pos).2 - 1) tmpId) x
      ↔ memB (arrSet s.buff pos tmpId) x := by
  induction fuel with
  | zero =>
    intro s tmpId pos _ x
    exact Iff.rfl
  | succ fuel ih =>
    intro s tmpId pos hp x
    simp only [downLoop]
    split
    · rename_i hcond
      have hfm := find_min_child_ne s pos hcond.1
      have hstep := ih
        ⟨arrSet s.nodes (arrGet s.buff (find_min_child s pos))
            { arrGet s.nodes (arrGet s.buff (find_min_child s pos)) with index := pos },
         arrSet s.buff pos (arrGet s.buff (find_min_child s pos))⟩
        tmpId (find_min_child s pos) (by simpa using hfm.2.1) x
      rw [hstep]
      exact memB_set_out s.buff pos (find_min_child s pos) tmpId hp hfm.2.1
        (by omega) x
    · exact Iff.rfl

/-- `percolate_up` permutes the heap: membership of the backing vector is
unchanged. -/
theorem percolate_up_memB (s : HeapState) (pos : Nat) (hpos : pos < s.buff.size) :
    ∀ x, memB (percolate_up s pos).buff x ↔ memB s.buff x := by
  intro x
  have hloop := upLoop_memB (pos + 1) s (arrGet s.buff pos) (pos + 1) (by omega)
    (by simpa using hpos) x
  have hbasic := upLoop_basic (pos + 1) s (arrGet s.buff pos) (pos + 1) (by omega)
  simp only [Nat.add_sub_cancel] at hloop
  rw [arrSet_arrGet_self _ _ hpos] at hloop
  unfold percolate_up
  split
  · exact hloop
  · rename_i hne
    have heq : (upLoop (pos + 1) s (arrGet s.buff pos) (pos + 1)).2 = pos + 1 := by
      have h1 := hbasic.2.2.1
      have h2 := hbasic.2.2.2.1
      omega
    rw [hbasic.2.2.2.2.1 heq]

/-- `percolate_down` permutes the heap: membership of the backing vector is
unchanged. -/
theorem percolate_down_memB (s : HeapState) (pos : Nat) (hpos : pos < s.buff.size) :
    ∀ x, memB (percolate_down s pos).buff x ↔ memB s.buff x := by
  intro x
  have hloop := downLoop_memB (s.buff.size + 1) s (arrGet s.buff pos) pos hpos x
  have hbasic := downLoop_basic (s.buff.size + 1) s (arrGet s.buff pos) pos
  rw [arrSet_arrGet_self _ _ hpos] at hloop
  unfold percolate_down
  split
  · exact hloop
  · rename_i hne
    have heq : (downLoop (s.buff.size + 1) s (arrGet s.buff pos) pos).2 = pos + 1 := by
      have h1 := hbasic.2.2.1
      omega
    rw [hbasic.2.2.2.1 heq]

/-- `update_place` on a stored node never adds or removes heap entries. -/
theorem update_place_memB (s : HeapState) (id tp : Nat) (hs : SlotInv s)
    (hmem : memB s.buff id) :
    ∀ x, memB (update_place s id tp).buff x ↔ memB s.buff x := by
  obtain ⟨i0, hi0, hbi⟩ := hmem
  have h0 := hs i0 hi0
  rw [hbi] at h0
  have hidx : (arrGet (setNext s id tp).nodes id).index = i0 := by
    rw [setNext_index]
    exact h0.2
  intro x
  unfold update_place
  split
  · rw [hidx]
    exact percolate_down_memB (setNext s id tp) i0 (by simpa using hi0) x
  · split
    · rw [hidx]
      exact percolate_up_memB (setNext s id tp) i0 (by simpa using hi0) x
    · exact Iff.rfl

/-- C9, counterexample to the claim as stated: destructing the Handle of
node 0 in `witnessState` (deadlines 5 and 7) sifts the parked node down;
node 1 moves from slot 1 to slot 0, so "every other node's fields and
position are unchanged" fails. -/
theorem claim_C9_counterexample :
    (arrGet (timerDtor witnessState (some 0)).nodes 1).index = 0 ∧
    (arrGet witnessState.nodes 1).index = 1 ∧
    arrGet (timerDtor witnessState (some 0)).buff 0 = 1 ∧
    arrGet witnessState.buff 0 = 0 := by
  decide

/-- **C9** (amended).  Handle destruction calls `stop` and never removes the
node from the heap: afterwards the node is still present with
`next_fire = +∞`, the heap size is unchanged, the set of stored nodes is
unchanged, and every *other* node keeps all its fields except possibly
`heap_slot` (the sift-down triggered by parking the node may move other
nodes within the heap). -/
theorem claim_C9_dtor_parks_node (s : HeapState) (id : Nat)
    (hs : SlotInv s) (hmem : memB s.buff id) :
    memB (timerDtor s (some id)).buff id ∧
    (arrGet (timerDtor s (some id)).nodes id).next_tp = UINT64MAX ∧
    (timerDtor s (some id)).buff.size = s.buff.size ∧
    (∀ x, memB (timerDtor s (some id)).buff x ↔ memB s.buff x) ∧
    (∀ nid, nid ≠ id →
      sameExceptIndex (arrGet (timerDtor s (some id)).nodes nid) (arrGet s.nodes nid)) := by
  have hid : id < s.nodes.size := by
    obtain ⟨i0, hi0, hbi⟩ := hmem
    have := (hs i0 hi0).1
    rw [hbi] at this
    exact this
  have hdtor : timerDtor s (some id) = update_place s id UINT64MAX := rfl
  rw [hdtor]
  have hmemiff := update_place_memB s id UINT64MAX hs hmem
  exact ⟨(hmemiff id).mpr hmem, update_place_next_tp s id UINT64MAX hid,
    (update_place_sizes s id UINT64MAX).1, hmemiff,
    fun nid hne => update_place_other s id UINT64MAX nid hne⟩

/-- Witness for C9 (amended) on `witnessState`: after destruction of node
0's Handle both nodes are still stored, node 0 is parked at `+∞`, and node
1's deadline is untouched. -/
theorem claim_C9_witness :
    memB (timerDtor witnessState (some 0)).buff 0 ∧
    (arrGet (timerDtor witnessState (some 0)).nodes 0).next_tp = UINT64MAX ∧
    (timerDtor witnessState (some 0)).buff.size = 2 ∧
    (arrGet (timerDtor witnessState (some 0)).nodes 1).next_tp = 7 := by
  have h := claim_C9_dtor_parks_node witnessState 0 (by decide) (by decide)
  refine ⟨h.1, h.2.1, h.2.2.1, ?_⟩
  have h5 := (h.2.2.2.2 1 (by decide)).2.2.2.1
  rw [h5]
  decide

/-! ### Heap-order machinery -/

theorem par_lt {j : Nat} (h : 1 ≤ j) : par j < j := by
  unfold par; omega

theorem par_child_iff {i j : Nat} (h : 1 ≤ j) :
    par j = i ↔ (j = 2 * i + 1 ∨ j = 2 * i + 2) := by
  unfold par; omega

/-- Overwriting only an `index` field never changes a `next_tp` read. -/
theorem next_tp_setIndex (a : Array TimerNode) (tid ix nid : Nat) :
    (arrGet (arrSet a tid { arrGet a tid with index := ix }) nid).next_tp
      = (arrGet a nid).next_tp := by
  by_cases hn : nid = tid
  · rw [hn]
    by_cases hlt : tid < a.size
    · rw [arrGet_arrSet_self _ _ _ hlt]
    · rw [arrSet_oob _ _ _ hlt]
  · rw [arrGet_arrSet_ne _ _ _ _ (fun he => hn he.symm)]

/-- `valAt` after writing node `tmpId` (with its `index` set) into position
`hole`: the hole shows `tmpId`'s deadline, all other positions are
unchanged. -/
theorem valAt_write (r : HeapState) (hole tmpId i : Nat) (hhole : hole < r.buff.size) :
    valAt ⟨arrSet r.nodes tmpId { arrGet r.nodes tmpId with index := hole },
      arrSet r.buff hole tmpId⟩ i
    = if i = hole then (arrGet r.nodes tmpId).next_tp else valAt r i := by
  unfold valAt nodeAt
  rw [next_tp_setIndex]
  by_cases hih : i = hole
  · rw [hih, arrGet_arrSet_self _ _ _ hhole, if_pos rfl]
  · rw [arrGet_arrSet_ne _ _ _ _ (fun he => hih he.symm), if_neg hih]

/-- If `find_min_child` stays put, the position has no children in range. -/
theorem find_min_child_self (s : HeapState) (pos : Nat)
    (h : find_min_child s pos = pos) : s.buff.size ≤ 2 * pos + 1 := by
  unfold find_min_child at h
  by_cases h1 : s.buff.size ≤ 2 * pos + 1
  · exact h1
  · exfalso
    rw [if_neg h1] at h
    by_cases h2 : s.buff.size ≤ 2 * pos + 2
    · rw [if_pos h2] at h; omega
    · rw [if_neg h2] at h
      split at h <;> omega

/-- When it moves, `find_min_child` returns the child with the smaller
deadline: it is at most every in-range child of `pos`. -/
theorem find_min_child_min (s : HeapState) (pos : Nat) :
    ∀ j, j < s.buff.size → 1 ≤ j → par j = pos →
      valAt s (find_min_child s pos) ≤ valAt s j := by
  intro j hj h1j hpj
  have hch : j = 2 * pos + 1 ∨ j = 2 * pos + 2 := (par_child_iff h1j).mp hpj
  unfold find_min_child
  by_cases h1 : s.buff.size ≤ 2 * pos + 1
  · omega
  · rw [if_neg h1]
    by_cases h2 : s.buff.size ≤ 2 * pos + 2
    · rw [if_pos h2]
      have hj1 : j = 2 * pos + 1 := by omega
      rw [hj1]
    · rw [if_neg h2]
      split
      · rename_i hlt
        rcases hch with h | h
        · rw [h]
        · rw [h]
          exact le_of_lt hlt
      · rename_i hge
        rcases hch with h | h
        · rw [h]
          exact le_of_not_lt hge
        · rw [h]

/-- `upLoop` maintains heap order away from the hole (`W4`), dominance of
the carried value over the hole's children (`W5`), taking the parent bridge
(`W6`) as input; on exit the hole is the root or its parent's deadline is at
most the carried value. -/
theorem upLoop_ord (fuel : Nat) :
    ∀ (s : HeapState) (tmpId wp : Nat), wp ≤ fuel → 1 ≤ wp → wp - 1 < s.buff.size →
      (∀ j, j < s.buff.size → 1 ≤ j → j ≠ wp - 1 → par j ≠ wp - 1 →
        valAt s (par j) ≤ valAt s j) →
      (∀ j, j < s.buff.size → 1 ≤ j → par j = wp - 1 →
        (arrGet s.nodes tmpId).next_tp ≤ valAt s j) →
      (1 ≤ wp - 1 → ∀ j, j < s.buff.size → 1 ≤ j → par j = wp - 1 →
        valAt s (par (wp - 1)) ≤ valAt s j) →
      (∀ j, j < s.buff.size → 1 ≤ j → j ≠ (upLoop fuel s tmpId wp).2 - 1 →
        par j ≠ (upLoop fuel s tmpId wp).2 - 1 →
        valAt (upLoop fuel s tmpId wp).1 (par j) ≤ valAt (upLoop fuel s tmpId wp).1 j) ∧
      (∀ j, j < s.buff.size → 1 ≤ j → par j = (upLoop fuel s tmpId wp).2 - 1 →
        (arrGet (upLoop fuel s tmpId wp).1.nodes tmpId).next_tp
          ≤ valAt (upLoop fuel s tmpId wp).1 j) ∧
      ((upLoop fuel s tmpId wp).2 - 1 = 0 ∨
        valAt (upLoop fuel s tmpId wp).1 (par ((upLoop fuel s tmpId wp).2 - 1))
          ≤ (arrGet (upLoop fuel s tmpId wp).1.nodes tmpId).next_tp) := by
  induction fuel with
  | zero =>
    intro s tmpId wp hfuel hw _ _ _ _
    omega
  | succ fuel ih =>
    intro s tmpId wp hfuel hw hh hW4 hW5 hW6
    simp only [upLoop]
    split
    · rename_i hcond
      obtain ⟨hpi, hguard⟩ := hcond
      have hwp2 : 2 ≤ wp := by omega
      have hparh : par (wp - 1) = wp / 2 - 1 := by unfold par; omega
      have hplt : wp / 2 - 1 < wp - 1 := by omega
      have hpN : wp / 2 - 1 < s.buff.size := lt_trans hplt hh
      have hval : ∀ i, valAt
          ⟨arrSet s.nodes (arrGet s.buff (wp / 2 - 1))
              { arrGet s.nodes (arrGet s.buff (wp / 2 - 1)) with index := wp - 1 },
           arrSet s.buff (wp - 1) (arrGet s.buff (wp / 2 - 1))⟩ i
          = if i = wp - 1 then valAt s (wp / 2 - 1) else valAt s i :=
        fun i => valAt_write s (wp - 1) (arrGet s.buff (wp / 2 - 1)) i hh
      have htmp : (arrGet (arrSet s.nodes (arrGet s.buff (wp / 2 - 1))
          { arrGet s.nodes (arrGet s.buff (wp / 2 - 1)) with index := wp - 1 }) tmpId).next_tp
          = (arrGet s.nodes tmpId).next_tp := next_tp_setIndex _ _ _ _
      have hguard' : (arrGet s.nodes tmpId).next_tp < valAt s (wp / 2 - 1) := hguard
      have hbsize : (arrSet s.buff (wp - 1) (arrGet s.buff (wp / 2 - 1))).size
          = s.buff.size := size_arrSet _ _ _
      have hres := ih
        ⟨arrSet s.nodes (arrGet s.buff (wp / 2 - 1))
            { arrGet s.nodes (arrGet s.buff (wp / 2 - 1)) with index := wp - 1 },
         arrSet s.buff (wp - 1) (arrGet s.buff (wp / 2 - 1))⟩
        tmpId (wp / 2) (by omega) hpi (by rw [hbsize]; exact hpN)
        (by
          intro j hj h1j hjp hpjp
          rw [hbsize] at hj
          have hjh : j ≠ wp - 1 := by
            intro he
            rw [he, hparh] at hpjp
            exact hpjp rfl
          rw [hval j, hval (par j), if_neg hjh]
          by_cases hpj : par j = wp - 1
          · rw [if_pos hpj]
            have h1h : 1 ≤ wp - 1 := by omega
            have hx := hW6 h1h j hj h1j hpj
            rw [hparh] at hx
            exact hx
          · rw [if_neg hpj]
            exact hW4 j hj h1j hjh hpj)
        (by
          intro j hj h1j hpj
          rw [hbsize] at hj
          rw [htmp, hval j]
          by_cases hjh : j = wp - 1
          · rw [if_pos hjh]
            exact le_of_lt hguard'
          · rw [if_neg hjh]
            have hsib : par j ≠ wp - 1 := by
              rw [hpj]
              omega
            have hx := hW4 j hj h1j hjh hsib
            rw [hpj] at hx
            exact le_trans (le_of_lt hguard') hx)
        (by
          intro h1p j hj h1j hpj
          rw [hbsize] at hj
          have hparp : par (wp / 2 - 1) ≠ wp - 1 := by
            have := par_lt h1p
            omega
          have hbase : valAt s (par (wp / 2 - 1)) ≤ valAt s (wp / 2 - 1) :=
            hW4 (wp / 2 - 1) hpN h1p (by omega) hparp
          rw [hval j, hval (par (wp / 2 - 1)), if_neg hparp]
          by_cases hjh : j = wp - 1
          · rw [if_pos hjh]
            exact hbase
          · rw [if_neg hjh]
            have hsib : par j ≠ wp - 1 := by
              rw [hpj]
              omega
            have hx := hW4 j hj h1j hjh hsib
            rw [hpj] at hx
            exact le_trans hbase hx)
      rw [hbsize] at hres
      exact hres
    · rename_i hcond
      refine ⟨hW4, hW5, ?_⟩
      rw [not_and_or] at hcond
      rcases hcond with h | h
      · exact Or.inl (show wp - 1 = 0 by omega)
      · push_neg at h
        by_cases h0 : wp - 1 = 0
        · exact Or.inl h0
        · right
          have hparh : par (wp - 1) = wp / 2 - 1 := by unfold par; omega
          show valAt s (par (wp - 1)) ≤ (arrGet s.nodes tmpId).next_tp
          rw [hparh]
          exact h

/-- `downLoop` maintains heap order away from the hole (`D4`), the parent
bound on the carried value (`D5`), taking the child bridge (`D6`) as input;
the hole stays in range and on exit it either has no children or the carried
value is at most the minimal child. -/
theorem downLoop_ord (fuel : Nat) :
    ∀ (s : HeapState) (tmpId pos : Nat),
      s.buff.size ≤ fuel + pos → pos < s.buff.size →
      (∀ j, j < s.buff.size → 1 ≤ j → j ≠ pos → par j ≠ pos →
        valAt s (par j) ≤ valAt s j) →
      (1 ≤ pos → valAt s (par pos) ≤ (arrGet s.nodes tmpId).next_tp) →
      (1 ≤ pos → ∀ j, j < s.buff.size → 1 ≤ j → par j = pos →
        valAt s (par pos) ≤ valAt s j) →
      (downLoop fuel s tmpId pos).2 - 1 < s.buff.size ∧
      (∀ j, j < s.buff.size → 1 ≤ j → j ≠ (downLoop fuel s tmpId pos).2 - 1 →
        par j ≠ (downLoop fuel s tmpId pos).2 - 1 →
        valAt (downLoop fuel s tmpId pos).1 (par j)
          ≤ valAt (downLoop fuel s tmpId pos).1 j) ∧
      (1 ≤ (downLoop fuel s tmpId pos).2 - 1 →
        valAt (downLoop fuel s tmpId pos).1 (par ((downLoop fuel s tmpId pos).2 - 1))
          ≤ (arrGet (downLoop fuel s tmpId pos).1.nodes tmpId).next_tp) ∧
      (find_min_child (downLoop fuel s tmpId pos).1 ((downLoop fuel s tmpId pos).2 - 1)
          = (downLoop fuel s tmpId pos).2 - 1 ∨
        (arrGet (downLoop fuel s tmpId pos).1.nodes tmpId).next_tp
          ≤ valAt (downLoop fuel s tmpId pos).1
              (find_min_child (downLoop fuel s tmpId pos).1
                ((downLoop fuel s tmpId pos).2 - 1))) := by
  induction fuel with
  | zero =>
    intro s tmpId pos hfuel hp _ _ _
    omega
  | succ fuel ih =>
    intro s tmpId pos hfuel hp hD4 hD5 hD6
    simp only [downLoop]
    split
    · rename_i hcond
      obtain ⟨hcne, hguard⟩ := hcond
      have hfm := find_min_child_ne s pos hcne
      have hcgt : pos < find_min_child s pos := hfm.1
      have hcN : find_min_child s pos < s.buff.size := hfm.2.1
      have h1c : 1 ≤ find_min_child s pos := by omega
      have hparc : par (find_min_child s pos) = pos :=
        (par_child_iff h1c).mpr hfm.2.2
      have hval : ∀ i, valAt
          ⟨arrSet s.nodes (arrGet s.buff (find_min_child s pos))
              { arrGet s.nodes (arrGet s.buff (find_min_child s pos)) with index := pos },
           arrSet s.buff pos (arrGet s.buff (find_min_child s pos))⟩ i
          = if i = pos then valAt s (find_min_child s pos) else valAt s i :=
        fun i => valAt_write s pos (arrGet s.buff (find_min_child s pos)) i hp
      have htmp : (arrGet (arrSet s.nodes (arrGet s.buff (find_min_child s pos))
          { arrGet s.nodes (arrGet s.buff (find_min_child s pos)) with index := pos })
          tmpId).next_tp = (arrGet s.nodes tmpId).next_tp := next_tp_setIndex _ _ _ _
      have hguard' : valAt s (find_min_child s pos) < (arrGet s.nodes tmpId).next_tp :=
        hguard
      have hbsize : (arrSet s.buff pos (arrGet s.buff (find_min_child s pos))).size
          = s.buff.size := size_arrSet _ _ _
      have hres := ih
        ⟨arrSet s.nodes (arrGet s.buff (find_min_child s pos))
            { arrGet s.nodes (arrGet s.buff (find_min_child s pos)) with index := pos },
         arrSet s.buff pos (arrGet s.buff (find_min_child s pos))⟩
        tmpId (find_min_child s pos) (by rw [hbsize]; omega) (by rw [hbsize]; exact hcN)
        (by
          intro j hj h1j hjc hpjc
          rw [hbsize] at hj
          by_cases hjp : j = pos
          · have h1p : 1 ≤ pos := by omega
            have hpp : par pos ≠ pos := by
              have := par_lt h1p
              omega
            rw [hjp, hval pos, hval (par pos), if_pos rfl, if_neg hpp]
            exact hD6 h1p (find_min_child s pos) hcN h1c hparc
          · by_cases hpj : par j = pos
            · rw [hval j, hval (par j), if_neg hjp, hpj, if_pos rfl]
              exact find_min_child_min s pos j hj h1j hpj
            · rw [hval j, hval (par j), if_neg hjp, if_neg hpj]
              exact hD4 j hj h1j hjp hpj)
        (by
          intro _
          rw [htmp, hval (par (find_min_child s pos)), hparc, if_pos rfl]
          exact le_of_lt hguard')
        (by
          intro _ j hj h1j hpj
          rw [hbsize] at hj
          have hjp : j ≠ pos := by
            have := par_lt h1j
            omega
          have hpjp : par j ≠ pos := by
            rw [hpj]
            omega
          rw [hval j, hval (par (find_min_child s pos)), hparc, if_pos rfl, if_neg hjp]
          have hx := hD4 j hj h1j hjp hpjp
          rw [hpj] at hx
          exact hx)
      rw [hbsize] at hres
      exact hres
    · rename_i hcond
      rw [not_and_or] at hcond
      dsimp only
      simp only [Nat.add_sub_cancel]
      refine ⟨hp, hD4, hD5, ?_⟩
      rcases hcond with h | h
      · left
        push_neg at h
        exact h
      · right
        push_neg at h
        exact h

/-- `percolate_up` restores heap order when order holds everywhere except
that the node at `pos` may be smaller than its parent, provided the bridge
(grandparent below `pos`'s children) holds. -/
theorem percolate_up_heapOrd (s : HeapState) (pos : Nat)
    (hpos : pos < s.buff.size)
    (hP4 : ∀ j, j < s.buff.size → 1 ≤ j → j ≠ pos → valAt s (par j) ≤ valAt s j)
    (hBr : 1 ≤ pos → ∀ j, j < s.buff.size → 1 ≤ j → par j = pos →
      valAt s (par pos) ≤ valAt s j) :
    HeapOrd (percolate_up s pos) := by
  have hbasic := upLoop_basic (pos + 1) s (arrGet s.buff pos) (pos + 1) (by omega)
  have hord := upLoop_ord (pos + 1) s (arrGet s.buff pos) (pos + 1) (le_refl _)
    (by omega) (by simpa using hpos)
    (by
      intro j hj h1j hjp hpjp
      exact hP4 j hj h1j (by omega))
    (by
      intro j hj h1j hpj
      have hpj' : par j = pos := by omega
      have hjp : j ≠ pos := by
        have := par_lt h1j
        omega
      have hx := hP4 j hj h1j hjp
      rw [hpj'] at hx
      exact hx)
    (by
      intro h1h j hj h1j hpj
      have h1p : 1 ≤ pos := by omega
      have hpj' : par j = pos := by omega
      have hx := hBr h1p j hj h1j hpj'
      exact hx)
  simp only [Nat.add_sub_cancel] at hord
  unfold percolate_up
  split
  · rename_i hne
    intro j hj h1j
    have hWsize : (arrSet (upLoop (pos + 1) s (arrGet s.buff pos) (pos + 1)).1.buff
        ((upLoop (pos + 1) s (arrGet s.buff pos) (pos + 1)).2 - 1)
        (arrGet s.buff pos)).size = s.buff.size := by
      rw [size_arrSet]
      exact hbasic.1
    have hjN : j < s.buff.size := by
      rw [← hWsize]
      exact hj
    have hhole : (upLoop (pos + 1) s (arrGet s.buff pos) (pos + 1)).2 - 1
        < (upLoop (pos + 1) s (arrGet s.buff pos) (pos + 1)).1.buff.size := by
      rw [hbasic.1]
      have h2 := hbasic.2.2.2.1
      omega
    have hvalW := valAt_write (upLoop (pos + 1) s (arrGet s.buff pos) (pos + 1)).1
      ((upLoop (pos + 1) s (arrGet s.buff pos) (pos + 1)).2 - 1) (arrGet s.buff pos)
    by_cases hjh : j = (upLoop (pos + 1) s (arrGet s.buff pos) (pos + 1)).2 - 1
    · have hph : par j ≠ (upLoop (pos + 1) s (arrGet s.buff pos) (pos + 1)).2 - 1 := by
        have := par_lt h1j
        omega
      rw [hvalW _ hhole, hvalW _ hhole, if_neg hph, if_pos hjh]
      have hx := hord.2.2
      rcases hx with h0 | h0
      · omega
      · rw [hjh]
        exact h0
    · by_cases hpj : par j = (upLoop (pos + 1) s (arrGet s.buff pos) (pos + 1)).2 - 1
      · rw [hvalW _ hhole, hvalW _ hhole, if_neg hjh, if_pos hpj]
        exact hord.2.1 j hjN h1j hpj
      · rw [hvalW _ hhole, hvalW _ hhole, if_neg hjh, if_neg hpj]
        exact hord.1 j hjN h1j hjh hpj
  · rename_i hne
    have heq : (upLoop (pos + 1) s (arrGet s.buff pos) (pos + 1)).2 = pos + 1 := by
      have h1 := hbasic.2.2.1
      have h2 := hbasic.2.2.2.1
      omega
    have hseq := hbasic.2.2.2.2.1 heq
    rw [hseq]
    intro j hj h1j
    by_cases hjp : j = pos
    · have hx := hord.2.2
      rw [heq, Nat.add_sub_cancel, hseq] at hx
      rcases hx with h0 | h0
      · omega
      · rw [hjp]
        exact h0
    · exact hP4 j hj h1j hjp

/-- `percolate_down` restores heap order when order holds everywhere except
that the node at `pos` may exceed its children, provided the bridge (parent
below `pos`'s children) holds. -/
theorem percolate_down_heapOrd (s : HeapState) (pos : Nat)
    (hpos : pos < s.buff.size)
    (hQ4 : ∀ j, j < s.buff.size → 1 ≤ j → par j ≠ pos → valAt s (par j) ≤ valAt s j)
    (hQ6 : 1 ≤ pos → ∀ j, j < s.buff.size → 1 ≤ j → par j = pos →
      valAt s (par pos) ≤ valAt s j) :
    HeapOrd (percolate_down s pos) := by
  have hbasic := downLoop_basic (s.buff.size + 1) s (arrGet s.buff pos) pos
  have hord := downLoop_ord (s.buff.size + 1) s (arrGet s.buff pos) pos (by omega) hpos
    (by
      intro j hj h1j hjp hpjp
      exact hQ4 j hj h1j hpjp)
    (by
      intro h1p
      have hpp : par pos ≠ pos := by
        have := par_lt h1p
        omega
      exact hQ4 pos hpos h1p hpp)
    hQ6
  unfold percolate_down
  split
  · rename_i hne
    intro j hj h1j
    have hWsize : (arrSet (downLoop (s.buff.size + 1) s (arrGet s.buff pos) pos).1.buff
        ((downLoop (s.buff.size + 1) s (arrGet s.buff pos) pos).2 - 1)
        (arrGet s.buff pos)).size = s.buff.size := by
      rw [size_arrSet]
      exact hbasic.1
    have hjN : j < s.buff.size := by
      rw [← hWsize]
      exact hj
    have hhole : (downLoop (s.buff.size + 1) s (arrGet s.buff pos) pos).2 - 1
        < (downLoop (s.buff.size + 1) s (arrGet s.buff pos) pos).1.buff.size := by
      rw [hbasic.1]
      exact hord.1
    have hvalW := valAt_write (downLoop (s.buff.size + 1) s (arrGet s.buff pos) pos).1
      ((downLoop (s.buff.size + 1) s (arrGet s.buff pos) pos).2 - 1) (arrGet s.buff pos)
    by_cases hjh : j = (downLoop (s.buff.size + 1) s (arrGet s.buff pos) pos).2 - 1
    · have hph : par j ≠ (downLoop (s.buff.size + 1) s (arrGet s.buff pos) pos).2 - 1 := by
        have := par_lt h1j
        omega
      rw [hvalW _ hhole, hvalW _ hhole, if_neg hph, if_pos hjh]
      have h1h : 1 ≤ (downLoop (s.buff.size + 1) s (arrGet s.buff pos) pos).2 - 1 := by
        omega
      have hx := hord.2.2.1 h1h
      rw [hjh]
      exact hx
    · by_cases hpj : par j = (downLoop (s.buff.size + 1) s (arrGet s.buff pos) pos).2 - 1
      · rw [hvalW _ hhole, hvalW _ hhole, if_neg hjh, if_pos hpj]
        rcases hord.2.2.2 with h0 | h0
        · exfalso
          have hch := find_min_child_self _ _ h0
          rw [hbasic.1] at hch
          have := (par_child_iff h1j).mp hpj
          omega
        · have hmin := find_min_child_min
            (downLoop (s.buff.size + 1) s (arrGet s.buff pos) pos).1
            ((downLoop (s.buff.size + 1) s (arrGet s.buff pos) pos).2 - 1)
            j (by rw [hbasic.1]; exact hjN) h1j hpj
          exact le_trans h0 hmin
      · rw [hvalW _ hhole, hvalW _ hhole, if_neg hjh, if_neg hpj]
        exact hord.2.1 j hjN h1j hjh hpj
  · rename_i hne
    have heq : (downLoop (s.buff.size + 1) s (arrGet s.buff pos) pos).2 = pos + 1 := by
      have h1 := hbasic.2.2.1
      omega
    have hseq := hbasic.2.2.2.1 heq
    intro j hj h1j
    rw [hseq] at hj ⊢
    by_cases hjp : j = pos
    · have h1p : 1 ≤ pos := by omega
      have hx := hord.2.2.1
      rw [heq, Nat.add_sub_cancel, hseq] at hx
      rw [hjp]
      exact hx h1p
    · by_cases hpj : par j = pos
      · rcases hord.2.2.2 with h0 | h0
        · exfalso
          rw [heq, Nat.add_sub_cancel, hseq] at h0
          have hch := find_min_child_self _ _ h0
          have := (par_child_iff h1j).mp hpj
          omega
        · rw [heq, Nat.add_sub_cancel, hseq] at h0
          have hmin := find_min_child_min s pos j hj h1j hpj
          have hx := le_trans h0 hmin
          rw [hpj]
          exact hx
      · exact hQ4 j hj h1j hpj

/-- `push` does not change any stored deadline at existing positions. -/
theorem valAt_push (s : HeapState) (id i : Nat) (hi : i < s.buff.size) :
    valAt (push s id) i = valAt s i := by
  unfold valAt nodeAt
  show (arrGet (arrSet s.nodes id { arrGet s.nodes id with index := s.buff.size })
    (arrGet (s.buff.push id) i)).next_tp = _
  rw [arrGet_push_lt _ _ _ hi, next_tp_setIndex]

@[simp] theorem push_buff_size (s : HeapState) (id : Nat) :
    (push s id).buff.size = s.buff.size + 1 := by
  simp [push]

/-- `push_and_sort` preserves heap order (the appended node is sifted up
from the last slot). -/
theorem push_and_sort_heapOrd (s : HeapState) (id : Nat) (hid : id < s.nodes.size)
    (ho : HeapOrd s) : HeapOrd (push_and_sort s id) := by
  unfold push_and_sort
  rw [push_index id hid]
  apply percolate_up_heapOrd
  · simp
  · intro j hj h1j hjp
    rw [push_buff_size] at hj
    have hjN : j < s.buff.size := by omega
    rw [valAt_push _ _ _ hjN, valAt_push _ _ _ (lt_trans (par_lt h1j) hjN)]
    exact ho j hjN h1j
  · intro h1p j hj h1j hpj
    exfalso
    rw [push_buff_size] at hj
    have := (par_child_iff h1j).mp hpj
    omega

/-- `update_place` preserves heap order for a node stored in the heap. -/
theorem update_place_heapOrd (s : HeapState) (id tp : Nat) (hs : SlotInv s)
    (ho : HeapOrd s) (hmem : memB s.buff id) : HeapOrd (update_place s id tp) := by
  obtain ⟨i0, hi0, hbi⟩ := hmem
  have h0 := hs i0 hi0
  rw [hbi] at h0
  have hidx : (arrGet (setNext s id tp).nodes id).index = i0 := by
    rw [setNext_index]
    exact h0.2
  have hv0 : valAt s i0 = (arrGet s.nodes id).next_tp := by
    unfold valAt nodeAt
    rw [hbi]
  have hval : ∀ i, i < s.buff.size →
      valAt (setNext s id tp) i = if i = i0 then tp else valAt s i := by
    intro i hi
    unfold valAt nodeAt
    by_cases hii : i = i0
    · rw [if_pos hii, hii]
      show (arrGet (setNext s id tp).nodes (arrGet s.buff i0)).next_tp = tp
      rw [hbi, setNext_nodes_self _ _ _ h0.1]
    · rw [if_neg hii]
      have hne2 : arrGet s.buff i ≠ id := by
        intro he
        have hx := slotInv_notElsewhere hs hi0 i hi hii
        rw [hbi] at hx
        exact hx he
      show (arrGet (setNext s id tp).nodes (arrGet s.buff i)).next_tp = _
      rw [setNext_nodes_ne _ _ _ _ hne2]
  unfold update_place
  split
  · rename_i hlt
    rw [hidx]
    apply percolate_down_heapOrd _ _ (by simpa using hi0)
    · intro j hj h1j hpj
      simp only [setNext_buff] at hj
      have hpjN : par j < s.buff.size := lt_trans (par_lt h1j) hj
      rw [hval j hj, hval (par j) hpjN]
      by_cases hji : j = i0
      · have hpi : par j ≠ i0 := hpj
        rw [if_pos hji, if_neg (by rw [hji] at hpi ⊢; exact hpi)]
        have hx := ho j hj h1j
        rw [hji] at hx ⊢
        rw [hv0] at hx
        exact le_trans hx (le_of_lt hlt)
      · rw [if_neg hji, if_neg hpj]
        exact ho j hj h1j
    · intro h1p j hj h1j hpj
      simp only [setNext_buff] at hj ⊢
      have hpjN : par i0 < s.buff.size := lt_trans (par_lt h1p) (by simpa using hi0)
      have hji : j ≠ i0 := by
        have := par_lt h1j
        omega
      have hpi : par i0 ≠ i0 := by
        have := par_lt h1p
        omega
      rw [hval j hj, hval (par i0) hpjN, if_neg hji, if_neg hpi]
      have hx1 := ho i0 (by simpa using hi0) h1p
      have hx2 := ho j hj h1j
      rw [hpj] at hx2
      exact le_trans hx1 hx2
  · split
    · rename_i hge hlt
      rw [hidx]
      apply percolate_up_heapOrd _ _ (by simpa using hi0)
      · intro j hj h1j hji
        simp only [setNext_buff] at hj
        have hpjN : par j < s.buff.size := lt_trans (par_lt h1j) hj
        rw [hval j hj, hval (par j) hpjN, if_neg hji]
        by_cases hpj : par j = i0
        · rw [if_pos hpj]
          have hx := ho j hj h1j
          rw [hpj, hv0] at hx
          exact le_trans (le_of_lt hlt) hx
        · rw [if_neg hpj]
          exact ho j hj h1j
      · intro h1p j hj h1j hpj
        simp only [setNext_buff] at hj
        have hpjN : par i0 < s.buff.size := lt_trans (par_lt h1p) (by simpa using hi0)
        have hji : j ≠ i0 := by
          have := par_lt h1j
          omega
        have hpi : par i0 ≠ i0 := by
          have := par_lt h1p
          omega
        rw [hval j hj, hval (par i0) hpjN, if_neg hji, if_neg hpi]
        have hx1 := ho i0 (by simpa using hi0) h1p
        have hx2 := ho j hj h1j
        rw [hpj] at hx2
        exact le_trans hx1 hx2
    · rename_i hge hle
      have heq : tp = (arrGet s.nodes id).next_tp := by omega
      intro j hj h1j
      simp only [setNext_buff] at hj
      have hpjN : par j < s.buff.size := lt_trans (par_lt h1j) hj
      rw [hval j hj, hval (par j) hpjN]
      have hx := ho j hj h1j
      by_cases hji : j = i0
      · rw [if_pos hji]
        by_cases hpi : par j = i0
        · rw [if_pos hpi]
        · rw [if_neg hpi]
          rw [hji, hv0, ← heq] at hx
          rw [hji]
          exact hx
      · rw [if_neg hji]
        by_cases hpi : par j = i0
        · rw [if_pos hpi]
          rw [hpi, hv0, ← heq] at hx
          exact hx
        · rw [if_neg hpi]
          exact hx

/-- In a heap satisfying the order invariant, the root deadline is minimal. -/
theorem heapOrd_root_min (s : HeapState) (ho : HeapOrd s) :
    ∀ i, i < s.buff.size → valAt s 0 ≤ valAt s i := by
  intro i
  induction i using Nat.strong_induction_on with
  | _ i ih =>
    intro hi
    rcases Nat.eq_zero_or_pos i with h0 | h0
    · rw [h0]
    · have hp := par_lt h0
      exact le_trans (ih (par i) hp (lt_trans hp hi)) (ho i hi h0)

/-- `insert(node)` of the spec: allocate a fresh node and `push_and_sort`
it. -/
def insert_new (s : HeapState) (nd : TimerNode) : HeapState :=
  push_and_sort ⟨s.nodes.push nd, s.buff⟩ s.nodes.size

/-- Heap states reachable from the empty heap by sequences of insert
(`push_and_sort` of a fresh node) and reposition (`update_place` of a stored
node) operations. -/
inductive Reachable : HeapState → Prop where
  | empty : Reachable ⟨#[], #[]⟩
  | insert (s : HeapState) (nd : TimerNode) : Reachable s → Reachable (insert_new s nd)
  | reposition (s : HeapState) (id tp : Nat) : Reachable s → memB s.buff id →
      Reachable (update_place s id tp)

/-- Allocating a fresh node (into the store only) preserves both
invariants. -/
theorem alloc_invariants (s : HeapState) (nd : TimerNode)
    (hs : SlotInv s) (ho : HeapOrd s) :
    SlotInv ⟨s.nodes.push nd, s.buff⟩ ∧ HeapOrd ⟨s.nodes.push nd, s.buff⟩ := by
  constructor
  · intro i hi
    have h := hs i hi
    refine ⟨by simp only [Array.size_push]; omega, ?_⟩
    show (arrGet (s.nodes.push nd) (arrGet s.buff i)).index = i
    rw [arrGet_push_lt _ _ _ h.1]
    exact h.2
  · intro j hj h1j
    have hp := hs (par j) (lt_trans (par_lt h1j) hj)
    have hh := hs j hj
    show (arrGet (s.nodes.push nd) (arrGet s.buff (par j))).next_tp
      ≤ (arrGet (s.nodes.push nd) (arrGet s.buff j)).next_tp
    rw [arrGet_push_lt _ _ _ hp.1, arrGet_push_lt _ _ _ hh.1]
    exact ho j hj h1j

/-- Every reachable heap state satisfies the slot and heap-order
invariants. -/
theorem reachable_invariants (s : HeapState) (hr : Reachable s) :
    SlotInv s ∧ HeapOrd s := by
  induction hr with
  | empty =>
    constructor
    · intro i hi
      simp at hi
    · intro j hj h1j
      simp at hj
  | insert s nd _ ih =>
    obtain ⟨hs, ho⟩ := ih
    obtain ⟨hs1, ho1⟩ := alloc_invariants s nd hs ho
    have hid : s.nodes.size < (HeapState.mk (s.nodes.push nd) s.buff).nodes.size := by
      simp
    have hmem : ¬ memB (HeapState.mk (s.nodes.push nd) s.buff).buff s.nodes.size := by
      rintro ⟨i, hi, he⟩
      have hi' : i < s.buff.size := hi
      have he' : arrGet s.buff i = s.nodes.size := he
      have h2 := (hs i hi').1
      omega
    exact ⟨push_and_sort_slotInv hs1 _ hid hmem,
      push_and_sort_heapOrd _ _ hid ho1⟩
  | reposition s id tp _ hmem ih =>
    obtain ⟨hs, ho⟩ := ih
    exact ⟨update_place_slotInv hs id tp hmem,
      update_place_heapOrd s id tp hs ho hmem⟩

/-- The node with a given deadline, as inserted in the concrete C3
scenario. -/
def deadlineNode (tp : Nat) : TimerNode :=
  { TimerNode.init with next_tp := tp }

/-- Fold a list of deadlines into a heap via `insert_new`, starting
empty. -/
def insertSeq (tps : List Nat) : HeapState :=
  tps.foldl (fun s tp => insert_new s (deadlineNode tp)) ⟨#[], #[]⟩

/-- **C3** (confirmed).  Heap-order invariant: for every sequence of insert
and reposition operations starting from the empty heap, the root has the
minimum `next_fire` among all nodes present in the heap; and in the concrete
scenario inserting deadlines [1000, 2000, 1500, 1300, 3000, 100] one at a
time, after each insertion the root deadline equals the running minimum
(100 after the last insertion). -/
theorem claim_C3_heap_order (s : HeapState) (hr : Reachable s) :
    (∀ i, i < s.buff.size → valAt s 0 ≤ valAt s i) ∧
    (valAt (insertSeq [1000]) 0 = 1000 ∧
     valAt (insertSeq [1000, 2000]) 0 = 1000 ∧
     valAt (insertSeq [1000, 2000, 1500]) 0 = 1000 ∧
     valAt (insertSeq [1000, 2000, 1500, 1300]) 0 = 1000 ∧
     valAt (insertSeq [1000, 2000, 1500, 1300, 3000]) 0 = 1000 ∧
     valAt (insertSeq [1000, 2000, 1500, 1300, 3000, 100]) 0 = 100) := by
  refine ⟨heapOrd_root_min s (reachable_invariants s hr).2, ?_⟩
  refine ⟨by decide, by decide, by decide, by decide, by decide, by decide⟩

/-- Witness for C3: after inserting 1000 then 2000, the root deadline is at
most the deadline in slot 1. -/
theorem claim_C3_witness :
    valAt (insertSeq [1000, 2000]) 0 ≤ valAt (insertSeq [1000, 2000]) 1 := by
  have hr : Reachable (insertSeq [1000, 2000]) := by
    show Reachable (insert_new (insert_new ⟨#[], #[]⟩ (deadlineNode 1000))
      (deadlineNode 2000))
    exact Reachable.insert _ _ (Reachable.insert _ _ Reachable.empty)
  exact (claim_C3_heap_order _ hr).1 1 (by decide)

end Stroll
